import Mathlib

/-!
Verification of the thread-builder text segmentation core (lib/threadUtils.ts).

The source is embedded shallowly over `List Char`: JavaScript strings become
character lists, the regex-based splitting routines become explicit scanning
functions with the exact match semantics of the source regexes, and the
`while` loop of `splitLongSentence` becomes a fuel-indexed recursion whose
fuel is proved sufficient (the fuel value `fragMeasure` strictly decreases at
every iteration of the source loop).

Top-level API mirrored from the source:
  `splitIntoThreads`, `splitLongSentence`, `estimateTweetCount`,
  `isValidTweetLength`.
-/

namespace ThreadBuilder

set_option maxRecDepth 16000

/-- `MAX_TWEET_LENGTH` from the source. -/
def MAX_TWEET_LENGTH : Nat := 280

/-- JavaScript whitespace (the class `\s`, which also backs `String.trim`):
space, tab, LF, VT, FF, CR, NBSP, and the Unicode space separators. -/
def isWS (c : Char) : Bool :=
  c == ' ' || c == '\t' || c == '\n' || c == '\x0b' || c == '\x0c' || c == '\r' ||
  c == ' ' || c == ' ' || (decide (' ' ≤ c) && decide (c ≤ ' ')) ||
  c == ' ' || c == ' ' || c == ' ' || c == ' ' ||
  c == '　' || c == '﻿'

/-- Sentence-terminal punctuation, the class `[.!?]` of the sentence regex. -/
def isTerm (c : Char) : Bool := c == '.' || c == '!' || c == '?'

/-- ASCII digits, used to recognise a numbering prefix `k/n `. -/
def isDigitC (c : Char) : Bool := decide ('0' ≤ c) && decide (c ≤ '9')

/-- Drop trailing JavaScript whitespace. -/
def dropTrailWS (l : List Char) : List Char := (l.reverse.dropWhile isWS).reverse

/-- JavaScript `String.prototype.trim`. -/
def trimL (l : List Char) : List Char := dropTrailWS (l.dropWhile isWS)

/-- JavaScript `content.replace(/\r\n/g, '\n')`: leftmost, non-overlapping. -/
def replaceCRLF : List Char → List Char
  | [] => []
  | [c] => [c]
  | c :: d :: rest =>
    if c == '\r' && d == '\n' then '\n' :: replaceCRLF rest
    else c :: replaceCRLF (d :: rest)

/-- `content.trim().replace(/\r\n/g, '\n')` — the normalization step. -/
def normalizeL (l : List Char) : List Char := replaceCRLF (trimL l)

/-- Scanner for `trimmedContent.split(/\n\s*\n/)`.

A match of `/\n\s*\n/` starts at a `'\n'` and, by greedy `\s*` with
backtracking on the final `'\n'`, extends to the last `'\n'` inside the
maximal whitespace run that follows.  `acc` holds the current piece reversed;
`fuel` bounds the scan (it is instantiated with the list length, which never
increases across recursive calls). -/
def splitParasGo : Nat → List Char → List Char → List (List Char)
  | _, acc, [] => [acc.reverse]
  | 0, acc, l => [acc.reverse ++ l]
  | fuel+1, acc, c :: rest =>
    if c == '\n' && (rest.takeWhile isWS).contains '\n' then
      acc.reverse ::
        splitParasGo fuel []
          (rest.drop ((rest.takeWhile isWS).length -
            ((rest.takeWhile isWS).reverse.findIdx (· == '\n'))))
    else
      splitParasGo fuel (c :: acc) rest

/-- `trimmedContent.split(/\n\s*\n/)` — the paragraph split. -/
def splitParasL (l : List Char) : List (List Char) := splitParasGo l.length [] l

/-- Scanner for `paragraph.split(/(?<=[.!?])\s+/)`: a separator is a maximal
whitespace run whose immediately preceding character is `.`, `!` or `?`. -/
def splitSentsGo : Nat → List Char → List Char → List (List Char)
  | _, acc, [] => [acc.reverse]
  | 0, acc, l => [acc.reverse ++ l]
  | fuel+1, acc, c :: rest =>
    if isTerm c && !(rest.takeWhile isWS).isEmpty then
      (c :: acc).reverse :: splitSentsGo fuel [] (rest.dropWhile isWS)
    else
      splitSentsGo fuel (c :: acc) rest

/-- `paragraph.split(/(?<=[.!?])\s+/)` — the sentence split. -/
def splitSentsL (p : List Char) : List (List Char) := splitSentsGo p.length [] p

/-- The three-character ellipsis marker `'...'` injected by the fragmenter. -/
def ell : List Char := ['.', '.', '.']

/-- Indices at which a maximal whitespace run starts.  Every breakpoint regex
of `splitLongSentence` (`/(?<=[:;])\s+/`, `/(?<=,)\s+/`,
`/\s+(?=and|...)/i`, `/\s+/`) can only match at such an index, because `\s+`
is greedy and the lookaround constraints fail strictly inside a run. -/
def runStarts (l : List Char) : List Nat :=
  (List.range l.length).filter fun i =>
    isWS (l.getD i ' ') && (i == 0 || !isWS (l.getD (i-1) ' '))

/-- Exclusive end of the maximal whitespace run starting at `i`. -/
def runEnd (l : List Char) (i : Nat) : Nat := i + ((l.drop i).takeWhile isWS).length

/-- The conjunction alternatives of the third breakpoint regex. -/
def conjs : List (List Char) :=
  ["and".data, "or".data, "but".data, "so".data, "because".data,
   "that".data, "which".data, "when".data, "where".data, "who".data, "if".data]

/-- Test that `t` starts with the pattern `pat`.  The comparison is
case-sensitive: although the breakpoint literal is written with an `/i` flag,
the loop executes `new RegExp(breakpoint, 'g')`, which rebuilds the regex from
its source with only the `g` flag, dropping `i`. -/
def startsWithPat (pat t : List Char) : Bool :=
  t.take pat.length == pat

/-- Whether the whitespace run starting at `i` in `l` is a match of breakpoint
regex number `k` (0: after `:`/`;`, 1: after `,`, 2: before a conjunction,
3: any whitespace). -/
def bpCond (l : List Char) (k i : Nat) : Bool :=
  if k = 0 then decide (1 ≤ i) && (l.getD (i-1) ' ' == ':' || l.getD (i-1) ' ' == ';')
  else if k = 1 then decide (1 ≤ i) && (l.getD (i-1) ' ' == ',')
  else if k = 2 then conjs.any fun p => startsWithPat p (l.drop (runEnd l i))
  else true

/-- For breakpoint regex `k`: the last match whose index is `≤ MAX - 3`,
skipping index `0` (the source tests `if (!match.index) continue`, and `0`
is falsy in JavaScript). -/
def pickBp (l : List Char) (k : Nat) : Option Nat :=
  ((runStarts l).filter fun i =>
    bpCond l k i && !(i == 0) && decide (i ≤ MAX_TWEET_LENGTH - 3)).getLast?

/-- The selected cut position: the first breakpoint regex (in priority order)
with a usable match, taking its last usable match; `none` means the forced
hard cut at `MAX - 3` is used. -/
def cutIndex (l : List Char) : Option Nat :=
  (pickBp l 0).orElse fun _ =>
    (pickBp l 1).orElse fun _ =>
      (pickBp l 2).orElse fun _ => pickBp l 3

/-- One iteration of the `while` loop of `splitLongSentence`: returns the
emitted chunk and the new `remainingSentence`. -/
def cutStep (r : List Char) : List Char × List Char :=
  match cutIndex r with
  | some i => (trimL (r.take i) ++ ell, ell ++ trimL (r.drop i))
  | none =>
    (trimL (r.take (MAX_TWEET_LENGTH - 3)) ++ ell,
     ell ++ trimL (r.drop (MAX_TWEET_LENGTH - 3)))

/-- Termination measure for the fragmentation loop.  A cut can lengthen the
remaining text by at most one character and only when it does not yet start
with `'...'`; once it does, every further cut strictly shortens it. -/
def fragMeasure (r : List Char) : Nat :=
  2 * r.length + (if r.take 3 = ell then 0 else 3)

/-- The `while (remainingSentence.length > MAX_TWEET_LENGTH)` loop of
`splitLongSentence`, with explicit fuel.  The fuel-0 branch is unreachable
when the fuel is at least `fragMeasure r` (proved below). -/
def splitLongGo : Nat → List Char → List (List Char)
  | 0, r => [r]
  | fuel+1, r =>
    if MAX_TWEET_LENGTH < r.length then
      (cutStep r).1 :: splitLongGo fuel (cutStep r).2
    else if 0 < r.length then [r] else []

/-- `splitLongSentence` from the source, on character lists. -/
def splitLongSentenceL (sentence : List Char) : List (List Char) :=
  splitLongGo (fragMeasure sentence) sentence

/-- One observable iteration of the fragmentation loop as a state transform on
`remainingSentence`: a cut when the text is still oversized, the identity once
it fits. -/
def fragStep (r : List Char) : List Char :=
  if MAX_TWEET_LENGTH < r.length then (cutStep r).2 else r

/-- The packer's candidate test `(currentThread + ' ' + sentence).length <=
MAX_TWEET_LENGTH`.  Note the separating space is included even when
`currentThread` is empty. -/
def candidateFits (cur sentence : List Char) : Bool :=
  decide ((cur ++ ' ' :: sentence).length ≤ MAX_TWEET_LENGTH)

/-- The body of the inner `for (const sentence of sentences)` loop.  The state
is `(threads, currentThread)`. -/
def packSentence (st : List (List Char) × List Char) (sentence : List Char) :
    List (List Char) × List Char :=
  if MAX_TWEET_LENGTH < sentence.length then
    ((if st.2.isEmpty then st.1 else st.1 ++ [trimL st.2]) ++ splitLongSentenceL sentence, [])
  else if candidateFits st.2 sentence then
    (st.1, if st.2.isEmpty then sentence else st.2 ++ ' ' :: sentence)
  else
    (st.1 ++ [trimL st.2], sentence)

/-- The body of the outer `for (const paragraph of paragraphs)` loop,
including the paragraph-break absorption step. -/
def packParagraph (st : List (List Char) × List Char) (para : List Char) :
    List (List Char) × List Char :=
  let st2 := (splitSentsL para).foldl packSentence st
  if st2.2.length + 2 ≤ MAX_TWEET_LENGTH then (st2.1, st2.2 ++ ['\n', '\n'])
  else (st2.1 ++ [trimL st2.2], [])

/-- The packing phase of `splitIntoThreads`: everything before numbering. -/
def packThreads (content : List Char) : List (List Char) :=
  let st := (splitParasL content).foldl packParagraph ([], [])
  if (trimL st.2).isEmpty then st.1 else st.1 ++ [trimL st.2]

/-- Decimal digits of `n`, most significant first (the rendering of
a number by `${...}` template interpolation); fuel-indexed so that it
kernel-reduces (fuel `n+1` always suffices). -/
def natDigitsF : Nat → Nat → List Char
  | 0, _ => []
  | fuel+1, n => if n < 10 then [Nat.digitChar n] else natDigitsF fuel (n / 10) ++ [Nat.digitChar (n % 10)]

/-- Decimal rendering of a natural number. -/
def natDigits (n : Nat) : List Char := natDigitsF (n + 1) n

/-- The numbering prefix `` `${index + 1}/${threads.length} ` `` for 0-based
index `i` of `n` total threads. -/
def numberingL (i n : Nat) : List Char := natDigits (i + 1) ++ '/' :: (natDigits n ++ [' '])

/-- `threads.map((thread, index) => ...)` of the numbering step. -/
def numberGo (n : Nat) : Nat → List (List Char) → List (List Char)
  | _, [] => []
  | i, t :: rest =>
    (if t.length + (numberingL i n).length ≤ MAX_TWEET_LENGTH
     then numberingL i n ++ t else t) :: numberGo n (i + 1) rest

/-- The numbering step: applied only when more than one thread resulted. -/
def addNumbering (threads : List (List Char)) : List (List Char) :=
  if 1 < threads.length then numberGo threads.length 0 threads else threads

/-- `splitIntoThreads` on character lists. -/
def splitIntoThreadsL (content : List Char) : List (List Char) :=
  addNumbering (packThreads (normalizeL content))

/-- `splitIntoThreads` from the source. -/
def splitIntoThreads (content : String) : List String :=
  (splitIntoThreadsL content.data).map fun l => String.mk l

/-- `splitLongSentence` from the source, on strings. -/
def splitLongSentence (sentence : String) : List String :=
  (splitLongSentenceL sentence.data).map fun l => String.mk l

/-- The sentence split `paragraph.split(/(?<=[.!?])\s+/)`, on strings. -/
def splitSentences (p : String) : List String :=
  (splitSentsL p.data).map fun l => String.mk l

/-- `estimateTweetCount` from the source: `Math.ceil(totalChars / (280 * 0.8))`.
In IEEE-754 double arithmetic `280 * 0.8` evaluates to exactly `224` (the
rounding error of `0.8` times `280` is below half an ulp at `224`), and
`Math.ceil` of the correctly rounded quotient `n / 224` equals the exact
ceiling for every representable string length, so the function is exactly
ceiling division by `224`. -/
def estimateTweetCount (content : String) : Nat :=
  (content.length + 223) / 224

/-- `isValidTweetLength` from the source. -/
def isValidTweetLength (text : String) : Bool :=
  decide (text.length ≤ MAX_TWEET_LENGTH)

/-! ### Spec-side devices

The reconstruction claim speaks of stripping injected numbering prefixes and
ellipsis markers and comparing modulo whitespace.  The following definitions
formalise those words of the spec (they have no counterpart in the source). -/

/-- Modelled from the spec: remove every whitespace character.  Two texts are
"equal up to whitespace collapsing differences" in the strongest sense the
code guarantees exactly when their `removeWS` images coincide. -/
def removeWS (l : List Char) : List Char := l.filter fun c => !isWS c

/-- Modelled from the spec: strip a leading ellipsis marker, if present. -/
def stripLeadEll (l : List Char) : List Char := if l.take 3 = ell then l.drop 3 else l

/-- Modelled from the spec: strip a trailing ellipsis marker, if present. -/
def stripTrailEll (l : List Char) : List Char :=
  if l.reverse.take 3 = ell then (l.reverse.drop 3).reverse else l

/-- Modelled from the spec: strip the ellipsis continuation markers. -/
def stripEll (l : List Char) : List Char := stripTrailEll (stripLeadEll l)

/-- Modelled from the spec: strip a numbering prefix `digits '/' digits ' '`
from the front, if the text starts with one; otherwise leave it unchanged. -/
def stripNum (l : List Char) : List Char :=
  match l.dropWhile isDigitC with
  | '/' :: rest =>
    if (l.takeWhile isDigitC).isEmpty then l
    else
      match rest.dropWhile isDigitC with
      | ' ' :: rest2 => if (rest.takeWhile isDigitC).isEmpty then l else rest2
      | _ => l
  | _ => l

/-- One `foldr` step of whitespace-run squeezing. -/
def squeezeStep (c : Char) (acc : List Char) : List Char :=
  if c == ' ' && acc.headD 'x' == ' ' then acc else c :: acc

/-- Modelled from the spec: collapse every whitespace run to a single space
and trim — the literal reading of "collapsing every whitespace run". -/
def collapseWS (l : List Char) : List Char :=
  trimL ((l.map fun c => if isWS c then ' ' else c).foldr squeezeStep [])

/-- The segments of `splitIntoThreads`, each with its numbering prefix and
its ellipsis markers stripped. -/
def strippedSegs (s : String) : List (List Char) :=
  (splitIntoThreadsL s.data).map fun t => stripEll (stripNum t)

/-- Claim C2 as stated: joining the stripped segments and collapsing
whitespace runs reproduces the normalized input with collapsed whitespace. -/
def reconStated (s : String) : Prop :=
  collapseWS (List.intercalate [' '] (strippedSegs s)) = collapseWS (normalizeL s.data)

/-! ### Helper lemmas: whitespace removal and trimming -/

theorem removeWS_nil : removeWS [] = [] := rfl

theorem removeWS_cons (c : Char) (l : List Char) :
    removeWS (c :: l) = if isWS c then removeWS l else c :: removeWS l := by
  by_cases h : isWS c <;> simp [removeWS, List.filter_cons, h]

theorem removeWS_append (a b : List Char) :
    removeWS (a ++ b) = removeWS a ++ removeWS b := by
  simp [removeWS, List.filter_append]

theorem removeWS_reverse (l : List Char) : removeWS l.reverse = (removeWS l).reverse := by
  simp [removeWS, List.filter_reverse]

theorem removeWS_allWS (l : List Char) (h : ∀ c ∈ l, isWS c = true) : removeWS l = [] := by
  induction l with
  | nil => rfl
  | cons c rest ih =>
    rw [removeWS_cons, if_pos (h c (List.mem_cons_self c rest))]
    exact ih fun d hd => h d (List.mem_cons_of_mem c hd)

theorem removeWS_dropWhileWS (l : List Char) : removeWS (l.dropWhile isWS) = removeWS l := by
  induction l with
  | nil => rfl
  | cons c rest ih =>
    by_cases h : isWS c
    · rw [List.dropWhile_cons_of_pos h, ih, removeWS_cons, if_pos h]
    · rw [List.dropWhile_cons_of_neg h]

theorem removeWS_dropTrailWS (l : List Char) : removeWS (dropTrailWS l) = removeWS l := by
  rw [dropTrailWS, removeWS_reverse, removeWS_dropWhileWS, removeWS_reverse,
    List.reverse_reverse]

theorem removeWS_trimL (l : List Char) : removeWS (trimL l) = removeWS l := by
  rw [trimL, removeWS_dropTrailWS, removeWS_dropWhileWS]

theorem removeWS_takeWhileWS (l : List Char) : removeWS (l.takeWhile isWS) = [] :=
  removeWS_allWS _ fun _ hc => List.mem_takeWhile_imp hc

theorem removeWS_split (l : List Char) (k : Nat) :
    removeWS l = removeWS (l.take k) ++ removeWS (l.drop k) := by
  rw [← removeWS_append, List.take_append_drop]

theorem dropTrailWS_length_le (l : List Char) : (dropTrailWS l).length ≤ l.length := by
  rw [dropTrailWS, List.length_reverse]
  calc (l.reverse.dropWhile isWS).length ≤ l.reverse.length :=
        (List.dropWhile_sublist _).length_le
    _ = l.length := List.length_reverse _

theorem trimL_length_le (l : List Char) : (trimL l).length ≤ l.length :=
  le_trans (dropTrailWS_length_le _) (List.dropWhile_sublist _).length_le

theorem trimL_sublist (l : List Char) : List.Sublist (trimL l) l := by
  refine List.Sublist.trans ?_ (List.dropWhile_sublist (l := l) (p := isWS))
  rw [trimL, dropTrailWS]
  have h := (List.dropWhile_sublist (l := (l.dropWhile isWS).reverse) (p := isWS)).reverse
  simpa using h

theorem mem_trimL (l : List Char) (c : Char) (hc : c ∈ trimL l) : c ∈ l :=
  (trimL_sublist l).subset hc

theorem dropWhileWS_eq_nil (l : List Char) (h : ∀ c ∈ l, isWS c = true) :
    l.dropWhile isWS = [] := by
  induction l with
  | nil => rfl
  | cons c rest ih =>
    rw [List.dropWhile_cons_of_pos (h c (List.mem_cons_self c rest))]
    exact ih fun d hd => h d (List.mem_cons_of_mem c hd)

theorem trimL_eq_nil (l : List Char) (h : ∀ c ∈ l, isWS c = true) : trimL l = [] := by
  rw [trimL, dropWhileWS_eq_nil l h]; rfl

theorem dropWhileWS_eq_self (l : List Char) (h : ∀ c ∈ l, isWS c = false) :
    l.dropWhile isWS = l := by
  cases l with
  | nil => rfl
  | cons c rest =>
    exact List.dropWhile_cons_of_neg (by simp [h c (List.mem_cons_self c rest)])

theorem trimL_eq_self (l : List Char) (h : ∀ c ∈ l, isWS c = false) : trimL l = l := by
  rw [trimL, dropWhileWS_eq_self l h, dropTrailWS,
    dropWhileWS_eq_self l.reverse (fun c hc => h c (List.mem_reverse.mp hc)),
    List.reverse_reverse]

/-! ### Helper lemmas: CRLF normalization -/

theorem removeWS_replaceCRLF : ∀ l : List Char, removeWS (replaceCRLF l) = removeWS l
  | [] => rfl
  | [c] => rfl
  | c :: d :: rest => by
    simp only [replaceCRLF]
    by_cases h : (c == '\r' && d == '\n') = true
    · rw [if_pos h]
      have hc : c = '\r' := eq_of_beq ((Bool.and_eq_true _ _).mp h).1
      have hd : d = '\n' := eq_of_beq ((Bool.and_eq_true _ _).mp h).2
      subst hc; subst hd
      rw [removeWS_cons, removeWS_cons, removeWS_cons]
      simp only [show isWS '\r' = true from rfl, show isWS '\n' = true from rfl, if_true]
      exact removeWS_replaceCRLF rest
    · rw [if_neg h, removeWS_cons, removeWS_replaceCRLF (d :: rest), ← removeWS_cons]

theorem mem_replaceCRLF : ∀ (l : List Char) (c : Char), c ∈ replaceCRLF l → c ∈ l
  | [], _, h => h
  | [_], _, h => h
  | a :: d :: rest, c, h => by
    simp only [replaceCRLF] at h
    by_cases hb : (a == '\r' && d == '\n') = true
    · rw [if_pos hb] at h
      have hd : d = '\n' := eq_of_beq ((Bool.and_eq_true _ _).mp hb).2
      subst hd
      rcases List.mem_cons.mp h with h1 | h2
      · subst h1; simp
      · have := mem_replaceCRLF rest c h2
        simp [this]
    · rw [if_neg hb] at h
      rcases List.mem_cons.mp h with h1 | h2
      · simp [h1]
      · have := mem_replaceCRLF (d :: rest) c h2
        rcases List.mem_cons.mp this with h3 | h4
        · simp [h3]
        · simp [h4]

/-! ### Helper lemmas: the two splitting scanners -/

theorem allWS_take_of_le_takeWhile (l : List Char) (K : Nat)
    (hK : K ≤ (l.takeWhile isWS).length) : ∀ c ∈ l.take K, isWS c = true := by
  have hEq : l.take K = (l.takeWhile isWS).take K := by
    conv_lhs => rw [← List.takeWhile_append_dropWhile (p := isWS) (l := l)]
    exact List.take_append_of_le_length hK
  intro c hc
  rw [hEq] at hc
  exact List.mem_takeWhile_imp (List.take_subset _ _ hc)

theorem splitParasGo_removeWS : ∀ (fuel : Nat) (acc l : List Char), l.length ≤ fuel →
    ((splitParasGo fuel acc l).map removeWS).flatten = removeWS acc.reverse ++ removeWS l := by
  intro fuel
  induction fuel with
  | zero =>
    intro acc l hl
    have : l = [] := List.length_eq_zero.mp (Nat.le_zero.mp hl)
    subst this
    simp [splitParasGo, removeWS]
  | succ fuel ih =>
    intro acc l hl
    cases l with
    | nil => simp [splitParasGo, removeWS]
    | cons c rest =>
      simp only [splitParasGo]
      by_cases h : (c == '\n' && (rest.takeWhile isWS).contains '\n') = true
      · rw [if_pos h]
        have hc : c = '\n' := eq_of_beq ((Bool.and_eq_true _ _).mp h).1
        have hK : (rest.takeWhile isWS).length -
            ((rest.takeWhile isWS).reverse.findIdx (· == '\n')) ≤
            (rest.takeWhile isWS).length := Nat.sub_le _ _
        have hlen : (rest.drop ((rest.takeWhile isWS).length -
            ((rest.takeWhile isWS).reverse.findIdx (· == '\n')))).length ≤ fuel := by
          have := List.length_drop ((rest.takeWhile isWS).length -
            ((rest.takeWhile isWS).reverse.findIdx (· == '\n'))) rest
          have hr : rest.length ≤ fuel := by simpa using Nat.le_of_succ_le_succ hl
          omega
        rw [List.map_cons, List.flatten_cons, ih [] _ hlen]
        have hsplit := removeWS_split rest ((rest.takeWhile isWS).length -
          ((rest.takeWhile isWS).reverse.findIdx (· == '\n')))
        have htake : removeWS (rest.take ((rest.takeWhile isWS).length -
            ((rest.takeWhile isWS).reverse.findIdx (· == '\n')))) = [] :=
          removeWS_allWS _ (allWS_take_of_le_takeWhile rest _ hK)
        rw [htake] at hsplit
        simp only [List.nil_append] at hsplit
        rw [removeWS_cons, if_pos (by rw [hc]; rfl), ← hsplit]
        simp [removeWS]
      · rw [if_neg h, ih (c :: acc) rest (by simpa using Nat.le_of_succ_le_succ hl)]
        rw [List.reverse_cons, removeWS_append,
          show (c :: rest) = [c] ++ rest from rfl, removeWS_append]
        simp [List.append_assoc]

theorem splitParasL_removeWS (l : List Char) :
    ((splitParasL l).map removeWS).flatten = removeWS l := by
  have h := splitParasGo_removeWS l.length [] l le_rfl
  simpa [splitParasL] using h

theorem splitParasGo_mem : ∀ (fuel : Nat) (acc l : List Char),
    ∀ p ∈ splitParasGo fuel acc l, ∀ c ∈ p, c ∈ acc ∨ c ∈ l := by
  intro fuel
  induction fuel with
  | zero =>
    intro acc l p hp c hc
    cases l with
    | nil =>
      simp only [splitParasGo, List.mem_singleton] at hp
      subst hp
      exact Or.inl (List.mem_reverse.mp hc)
    | cons a rest =>
      simp only [splitParasGo, List.mem_singleton] at hp
      subst hp
      rcases List.mem_append.mp hc with h1 | h2
      · exact Or.inl (List.mem_reverse.mp h1)
      · exact Or.inr h2
  | succ fuel ih =>
    intro acc l p hp c hc
    cases l with
    | nil =>
      simp only [splitParasGo, List.mem_singleton] at hp
      subst hp
      exact Or.inl (List.mem_reverse.mp hc)
    | cons a rest =>
      simp only [splitParasGo] at hp
      by_cases h : (a == '\n' && (rest.takeWhile isWS).contains '\n') = true
      · rw [if_pos h] at hp
        rcases List.mem_cons.mp hp with h1 | h2
        · subst h1
          exact Or.inl (List.mem_reverse.mp hc)
        · rcases ih [] _ p h2 c hc with h3 | h4
          · exact absurd h3 (List.not_mem_nil c)
          · exact Or.inr (List.mem_cons_of_mem a (List.drop_subset _ rest h4))
      · rw [if_neg h] at hp
        rcases ih (a :: acc) rest p hp c hc with h3 | h4
        · rcases List.mem_cons.mp h3 with h5 | h6
          · exact Or.inr (h5 ▸ List.mem_cons_self a rest)
          · exact Or.inl h6
        · exact Or.inr (List.mem_cons_of_mem a h4)

theorem splitSentsGo_removeWS : ∀ (fuel : Nat) (acc l : List Char), l.length ≤ fuel →
    ((splitSentsGo fuel acc l).map removeWS).flatten = removeWS acc.reverse ++ removeWS l := by
  intro fuel
  induction fuel with
  | zero =>
    intro acc l hl
    have : l = [] := List.length_eq_zero.mp (Nat.le_zero.mp hl)
    subst this
    simp [splitSentsGo, removeWS]
  | succ fuel ih =>
    intro acc l hl
    cases l with
    | nil => simp [splitSentsGo, removeWS]
    | cons c rest =>
      simp only [splitSentsGo]
      by_cases h : (isTerm c && !(rest.takeWhile isWS).isEmpty) = true
      · rw [if_pos h]
        have hlen : (rest.dropWhile isWS).length ≤ fuel := by
          have h1 : (rest.dropWhile isWS).length ≤ rest.length :=
            (List.dropWhile_sublist _).length_le
          have hr : rest.length ≤ fuel := by simpa using Nat.le_of_succ_le_succ hl
          omega
        rw [List.map_cons, List.flatten_cons, ih [] _ hlen, removeWS_dropWhileWS]
        rw [List.reverse_cons, removeWS_append,
          show (c :: rest) = [c] ++ rest from rfl, removeWS_append]
        simp [List.append_assoc, removeWS]
      · rw [if_neg h, ih (c :: acc) rest (by simpa using Nat.le_of_succ_le_succ hl)]
        rw [List.reverse_cons, removeWS_append,
          show (c :: rest) = [c] ++ rest from rfl, removeWS_append]
        simp [List.append_assoc]

theorem splitSentsL_removeWS (p : List Char) :
    ((splitSentsL p).map removeWS).flatten = removeWS p := by
  have h := splitSentsGo_removeWS p.length [] p le_rfl
  simpa [splitSentsL] using h

theorem splitSentsGo_mem : ∀ (fuel : Nat) (acc l : List Char),
    ∀ p ∈ splitSentsGo fuel acc l, ∀ c ∈ p, c ∈ acc ∨ c ∈ l := by
  intro fuel
  induction fuel with
  | zero =>
    intro acc l p hp c hc
    cases l with
    | nil =>
      simp only [splitSentsGo, List.mem_singleton] at hp
      subst hp
      exact Or.inl (List.mem_reverse.mp hc)
    | cons a rest =>
      simp only [splitSentsGo, List.mem_singleton] at hp
      subst hp
      rcases List.mem_append.mp hc with h1 | h2
      · exact Or.inl (List.mem_reverse.mp h1)
      · exact Or.inr h2
  | succ fuel ih =>
    intro acc l p hp c hc
    cases l with
    | nil =>
      simp only [splitSentsGo, List.mem_singleton] at hp
      subst hp
      exact Or.inl (List.mem_reverse.mp hc)
    | cons a rest =>
      simp only [splitSentsGo] at hp
      by_cases h : (isTerm a && !(rest.takeWhile isWS).isEmpty) = true
      · rw [if_pos h] at hp
        rcases List.mem_cons.mp hp with h1 | h2
        · subst h1
          have h7 : c ∈ acc ∨ c = a := by simpa using hc
          rcases h7 with h5 | h6
          · exact Or.inl h5
          · exact Or.inr (h6 ▸ List.mem_cons_self a rest)
        · rcases ih [] _ p h2 c hc with h3 | h4
          · exact absurd h3 (List.not_mem_nil c)
          · exact Or.inr (List.mem_cons_of_mem a ((List.dropWhile_sublist _).subset h4))
      · rw [if_neg h] at hp
        rcases ih (a :: acc) rest p hp c hc with h3 | h4
        · rcases List.mem_cons.mp h3 with h5 | h6
          · exact Or.inr (h5 ▸ List.mem_cons_self a rest)
          · exact Or.inl h6
        · exact Or.inr (List.mem_cons_of_mem a h4)

theorem splitSentsGo_noTerm : ∀ (fuel : Nat) (acc l : List Char),
    (∀ c ∈ l, isTerm c = false) → splitSentsGo fuel acc l = [acc.reverse ++ l] := by
  intro fuel
  induction fuel with
  | zero =>
    intro acc l _
    cases l with
    | nil => simp [splitSentsGo]
    | cons a rest => rfl
  | succ fuel ih =>
    intro acc l h
    cases l with
    | nil => simp [splitSentsGo]
    | cons a rest =>
      simp only [splitSentsGo]
      rw [if_neg (by simp [h a (List.mem_cons_self a rest)])]
      rw [ih (a :: acc) rest (fun c hc => h c (List.mem_cons_of_mem a hc))]
      simp

theorem splitSentsL_noTerm (l : List Char) (h : ∀ c ∈ l, isTerm c = false) :
    splitSentsL l = [l] := by
  rw [splitSentsL, splitSentsGo_noTerm l.length [] l h]
  rfl

theorem splitParasGo_noWS : ∀ (fuel : Nat) (acc l : List Char),
    (∀ c ∈ l, isWS c = false) → splitParasGo fuel acc l = [acc.reverse ++ l] := by
  intro fuel
  induction fuel with
  | zero =>
    intro acc l _
    cases l with
    | nil => simp [splitParasGo]
    | cons a rest => rfl
  | succ fuel ih =>
    intro acc l h
    cases l with
    | nil => simp [splitParasGo]
    | cons a rest =>
      simp only [splitParasGo]
      have ha : (a == '\n') = false := by
        have := h a (List.mem_cons_self a rest)
        by_cases hb : a = '\n'
        · rw [hb] at this; exact absurd this (by simp [isWS])
        · simp [hb]
      rw [if_neg (by simp [ha])]
      rw [ih (a :: acc) rest (fun c hc => h c (List.mem_cons_of_mem a hc))]
      simp

theorem splitParasL_noWS (l : List Char) (h : ∀ c ∈ l, isWS c = false) :
    splitParasL l = [l] := by
  rw [splitParasL, splitParasGo_noWS l.length [] l h]
  rfl

theorem splitSentsGo_noWS : ∀ (fuel : Nat) (acc l : List Char),
    (∀ c ∈ l, isWS c = false) → splitSentsGo fuel acc l = [acc.reverse ++ l] := by
  intro fuel
  induction fuel with
  | zero =>
    intro acc l _
    cases l with
    | nil => simp [splitSentsGo]
    | cons a rest => rfl
  | succ fuel ih =>
    intro acc l h
    cases l with
    | nil => simp [splitSentsGo]
    | cons a rest =>
      simp only [splitSentsGo]
      have ha : (rest.takeWhile isWS).isEmpty = true := by
        cases rest with
        | nil => rfl
        | cons b rb =>
          rw [List.takeWhile_cons_of_neg]
          · rfl
          · simp [h b (List.mem_cons_of_mem a (List.mem_cons_self b rb))]
      rw [if_neg (by simp [ha])]
      rw [ih (a :: acc) rest (fun c hc => h c (List.mem_cons_of_mem a hc))]
      simp

theorem splitSentsL_noWS (l : List Char) (h : ∀ c ∈ l, isWS c = false) :
    splitSentsL l = [l] := by
  rw [splitSentsL, splitSentsGo_noWS l.length [] l h]
  rfl

/-! ### Helper lemmas: the fragmentation loop -/

theorem mem_of_getLast?_eq (L : List Nat) (a : Nat) (h : L.getLast? = some a) : a ∈ L := by
  obtain ⟨hne, rfl⟩ := List.mem_getLast?_eq_getLast (x := a) (l := L) (by rw [h]; rfl)
  exact List.getLast_mem hne

theorem mem_runStarts (l : List Char) (i : Nat) (h : i ∈ runStarts l) :
    i < l.length ∧ isWS (l.getD i ' ') = true := by
  have h1 : i ∈ List.range l.length := List.mem_of_mem_filter h
  have h2 := List.of_mem_filter h
  exact ⟨List.mem_range.mp h1, ((Bool.and_eq_true _ _).mp h2).1⟩

theorem pickBp_spec (l : List Char) (k i : Nat) (h : pickBp l k = some i) :
    i ∈ runStarts l ∧ i ≠ 0 ∧ i ≤ MAX_TWEET_LENGTH - 3 := by
  have hmem := mem_of_getLast?_eq _ _ h
  have h1 := List.mem_of_mem_filter hmem
  have h2 := List.of_mem_filter hmem
  obtain ⟨h3, h4⟩ := (Bool.and_eq_true _ _).mp h2
  obtain ⟨_, h5⟩ := (Bool.and_eq_true _ _).mp h3
  refine ⟨h1, ?_, of_decide_eq_true h4⟩
  intro hi
  subst hi
  simp at h5

theorem cutIndex_spec (l : List Char) (i : Nat) (h : cutIndex l = some i) :
    i ∈ runStarts l ∧ i ≠ 0 ∧ i ≤ MAX_TWEET_LENGTH - 3 := by
  unfold cutIndex at h
  cases h0 : pickBp l 0 with
  | some j =>
    rw [h0] at h
    simp only [Option.orElse] at h
    exact Option.some.inj h ▸ pickBp_spec l 0 j h0
  | none =>
    rw [h0] at h
    simp only [Option.orElse] at h
    cases h1 : pickBp l 1 with
    | some j =>
      rw [h1] at h
      simp only [Option.orElse] at h
      exact Option.some.inj h ▸ pickBp_spec l 1 j h1
    | none =>
      rw [h1] at h
      simp only [Option.orElse] at h
      cases h2 : pickBp l 2 with
      | some j =>
        rw [h2] at h
        simp only [Option.orElse] at h
        exact Option.some.inj h ▸ pickBp_spec l 2 j h2
      | none =>
        rw [h2] at h
        simp only [Option.orElse] at h
        exact pickBp_spec l 3 i h

theorem cutIndex_ws (l : List Char) (i : Nat) (h : cutIndex l = some i) :
    i < l.length ∧ isWS (l.getD i ' ') = true ∧ 1 ≤ i ∧ i ≤ MAX_TWEET_LENGTH - 3 := by
  obtain ⟨hrs, hne, hle⟩ := cutIndex_spec l i h
  obtain ⟨hlt, hws⟩ := mem_runStarts l i hrs
  exact ⟨hlt, hws, Nat.one_le_iff_ne_zero.mpr hne, hle⟩

theorem trimL_cons_ws_length (c : Char) (t : List Char) (h : isWS c = true) :
    (trimL (c :: t)).length ≤ t.length := by
  rw [trimL, List.dropWhile_cons_of_pos h]
  exact le_trans (dropTrailWS_length_le _) (List.dropWhile_sublist _).length_le

theorem trimL_drop_length (l : List Char) (i : Nat) (hlt : i < l.length)
    (hws : isWS (l.getD i ' ') = true) :
    (trimL (l.drop i)).length ≤ l.length - i - 1 := by
  rw [List.drop_eq_getElem_cons hlt]
  have h1 := trimL_cons_ws_length (l[i]) (l.drop (i+1))
    (by rwa [List.getD_eq_getElem l ' ' hlt] at hws)
  have h2 : (l.drop (i+1)).length = l.length - (i+1) := List.length_drop _ _
  omega

theorem take3_ell_append (x : List Char) : (ell ++ x).take 3 = ell := by
  simp [ell]

theorem take3_ell_shape (r : List Char) (h : r.take 3 = ell) :
    ∃ r3, r = '.' :: '.' :: '.' :: r3 := by
  cases r with
  | nil => exact absurd h (by decide)
  | cons c1 r1 =>
    cases r1 with
    | nil => simp [ell] at h
    | cons c2 r2 =>
      cases r2 with
      | nil => simp [ell] at h
      | cons c3 r3 =>
        obtain ⟨h1, h2, h3⟩ : c1 = '.' ∧ c2 = '.' ∧ c3 = '.' := by
          simpa [ell] using h
        exact ⟨r3, by rw [h1, h2, h3]⟩

theorem length_ge_3_of_take3 (r : List Char) (h : r.take 3 = ell) : 3 ≤ r.length := by
  obtain ⟨r3, rfl⟩ := take3_ell_shape r h
  simp

theorem cutIndex_ge3_of_ell (r : List Char) (i : Nat) (h : cutIndex r = some i)
    (he : r.take 3 = ell) : 3 ≤ i := by
  obtain ⟨hlt, hws, h1, _⟩ := cutIndex_ws r i h
  obtain ⟨r3, rfl⟩ := take3_ell_shape r he
  by_contra hlt3
  push_neg at hlt3
  have hi : i = 1 ∨ i = 2 := by omega
  rcases hi with rfl | rfl
  · have hg : ('.' :: '.' :: '.' :: r3).getD 1 ' ' = '.' := rfl
    rw [hg] at hws
    exact absurd hws (by decide)
  · have hg : ('.' :: '.' :: '.' :: r3).getD 2 ' ' = '.' := rfl
    rw [hg] at hws
    exact absurd hws (by decide)

theorem cutStep_cases (r : List Char) :
    (∃ i, cutIndex r = some i ∧
      cutStep r = (trimL (r.take i) ++ ell, ell ++ trimL (r.drop i)) ∧
      i < r.length ∧ isWS (r.getD i ' ') = true ∧ 1 ≤ i ∧ i ≤ MAX_TWEET_LENGTH - 3) ∨
    (cutIndex r = none ∧
      cutStep r = (trimL (r.take (MAX_TWEET_LENGTH - 3)) ++ ell,
        ell ++ trimL (r.drop (MAX_TWEET_LENGTH - 3)))) := by
  cases h : cutIndex r with
  | some i =>
    left
    obtain ⟨hlt, hws, h1, h277⟩ := cutIndex_ws r i h
    refine ⟨i, rfl, ?_, hlt, hws, h1, h277⟩
    unfold cutStep
    rw [h]
  | none =>
    right
    refine ⟨rfl, ?_⟩
    unfold cutStep
    rw [h]

theorem fragMeasure_pos (r : List Char) : 0 < fragMeasure r := by
  rw [fragMeasure]
  by_cases h : r.take 3 = ell
  · have := length_ge_3_of_take3 r h
    rw [if_pos h]
    omega
  · rw [if_neg h]
    omega

theorem cutStep_measure (r : List Char) (hlen : MAX_TWEET_LENGTH < r.length) :
    fragMeasure (cutStep r).2 < fragMeasure r := by
  rcases cutStep_cases r with ⟨i, hci, hstep, hlt, hws, h1, h277⟩ | ⟨hci, hstep⟩
  · rw [hstep]
    have hlen2 : (trimL (r.drop i)).length ≤ r.length - i - 1 := trimL_drop_length r i hlt hws
    have htk := take3_ell_append (trimL (r.drop i))
    rw [show (trimL (r.take i) ++ ell, ell ++ trimL (r.drop i)).2 = ell ++ trimL (r.drop i) from rfl]
    rw [fragMeasure, fragMeasure, if_pos htk]
    by_cases hre : r.take 3 = ell
    · have h3 : 3 ≤ i := cutIndex_ge3_of_ell r i hci hre
      rw [if_pos hre]
      have : (ell ++ trimL (r.drop i)).length = 3 + (trimL (r.drop i)).length := by
        rw [List.length_append]; rfl
      omega
    · rw [if_neg hre]
      have : (ell ++ trimL (r.drop i)).length = 3 + (trimL (r.drop i)).length := by
        rw [List.length_append]; rfl
      omega
  · rw [hstep]
    have hlen2 : (trimL (r.drop (MAX_TWEET_LENGTH - 3))).length ≤
        r.length - (MAX_TWEET_LENGTH - 3) := by
      have h1 := trimL_length_le (r.drop (MAX_TWEET_LENGTH - 3))
      have h2 : (r.drop (MAX_TWEET_LENGTH - 3)).length = r.length - (MAX_TWEET_LENGTH - 3) :=
        List.length_drop _ _
      omega
    have htk := take3_ell_append (trimL (r.drop (MAX_TWEET_LENGTH - 3)))
    rw [show (trimL (r.take (MAX_TWEET_LENGTH - 3)) ++ ell,
      ell ++ trimL (r.drop (MAX_TWEET_LENGTH - 3))).2 =
      ell ++ trimL (r.drop (MAX_TWEET_LENGTH - 3)) from rfl]
    rw [fragMeasure, fragMeasure, if_pos htk]
    have hle : (ell ++ trimL (r.drop (MAX_TWEET_LENGTH - 3))).length =
        3 + (trimL (r.drop (MAX_TWEET_LENGTH - 3))).length := by
      rw [List.length_append]; rfl
    rw [MAX_TWEET_LENGTH] at hlen hlen2 hle ⊢
    by_cases hre : r.take 3 = ell
    · rw [if_pos hre]
      omega
    · rw [if_neg hre]
      omega

theorem cutStep_shape (r : List Char) :
    ∃ j, cutStep r = (trimL (r.take j) ++ ell, ell ++ trimL (r.drop j)) ∧ 1 ≤ j ∧
      j ≤ MAX_TWEET_LENGTH - 3 ∧ (r.take 3 = ell → 3 ≤ j) := by
  rcases cutStep_cases r with ⟨i, hci, hstep, _, _, h1, h277⟩ | ⟨hci, hstep⟩
  · exact ⟨i, hstep, h1, h277, fun he => cutIndex_ge3_of_ell r i hci he⟩
  · refine ⟨MAX_TWEET_LENGTH - 3, hstep, ?_, le_rfl, fun _ => ?_⟩
    · rw [MAX_TWEET_LENGTH]; omega
    · rw [MAX_TWEET_LENGTH]; omega

theorem mem_ell (c : Char) (h : c ∈ ell) : c = '.' := by
  simp [ell] at h
  exact h

theorem cutStep_fst_length (r : List Char) : (cutStep r).1.length ≤ MAX_TWEET_LENGTH := by
  obtain ⟨j, hstep, _, hj277, _⟩ := cutStep_shape r
  have h1 : (cutStep r).1 = trimL (r.take j) ++ ell := by rw [hstep]
  rw [h1, List.length_append]
  have h2 : (trimL (r.take j)).length ≤ (r.take j).length := trimL_length_le _
  have h3 : (r.take j).length ≤ j := by
    rw [List.length_take]; omega
  have h4 : ell.length = 3 := rfl
  rw [MAX_TWEET_LENGTH] at hj277 ⊢
  omega

theorem cutStep_snd_take3 (r : List Char) : (cutStep r).2.take 3 = ell := by
  obtain ⟨j, hstep, _, _, _⟩ := cutStep_shape r
  have h2 : (cutStep r).2 = ell ++ trimL (r.drop j) := by rw [hstep]
  rw [h2]
  exact take3_ell_append _

theorem cutStep_snd_pos (r : List Char) : 0 < (cutStep r).2.length := by
  obtain ⟨j, hstep, _, _, _⟩ := cutStep_shape r
  have h2 : (cutStep r).2 = ell ++ trimL (r.drop j) := by rw [hstep]
  rw [h2, List.length_append]
  have : ell.length = 3 := rfl
  omega

theorem cutStep_fst_endsEll (r : List Char) : (cutStep r).1.reverse.take 3 = ell := by
  obtain ⟨j, hstep, _, _, _⟩ := cutStep_shape r
  have h1 : (cutStep r).1 = trimL (r.take j) ++ ell := by rw [hstep]
  rw [h1, List.reverse_append, show ell.reverse = ell from rfl]
  exact take3_ell_append _

theorem cutStep_mem (r : List Char) (c : Char) :
    (c ∈ (cutStep r).1 → c ∈ r ∨ c = '.') ∧ (c ∈ (cutStep r).2 → c ∈ r ∨ c = '.') := by
  obtain ⟨j, hstep, _, _, _⟩ := cutStep_shape r
  have h1 : (cutStep r).1 = trimL (r.take j) ++ ell := by rw [hstep]
  have h2 : (cutStep r).2 = ell ++ trimL (r.drop j) := by rw [hstep]
  constructor
  · intro hc
    rw [h1] at hc
    rcases List.mem_append.mp hc with h3 | h4
    · exact Or.inl (List.take_subset _ _ (mem_trimL _ _ h3))
    · exact Or.inr (mem_ell c h4)
  · intro hc
    rw [h2] at hc
    rcases List.mem_append.mp hc with h3 | h4
    · exact Or.inr (mem_ell c h3)
    · exact Or.inl (List.drop_subset _ _ (mem_trimL _ _ h4))

/-! ### Structure lemmas for `ell`-prefixed lists -/

theorem dropWhileWS_append_ell (a : List Char) :
    (a ++ ell).dropWhile isWS = a.dropWhile isWS ++ ell := by
  induction a with
  | nil => rfl
  | cons c rest ih =>
    by_cases h : isWS c
    · rw [List.cons_append, List.dropWhile_cons_of_pos h, List.dropWhile_cons_of_pos h, ih]
    · rw [List.cons_append, List.dropWhile_cons_of_neg h, List.dropWhile_cons_of_neg h,
        List.cons_append]

theorem dropTrailWS_ell_append (t : List Char) :
    dropTrailWS (ell ++ t) = ell ++ dropTrailWS t := by
  rw [dropTrailWS, dropTrailWS, List.reverse_append, show ell.reverse = ell from rfl,
    dropWhileWS_append_ell, List.reverse_append, show ell.reverse = ell from rfl]

theorem trimL_ell_append (t : List Char) : trimL (ell ++ t) = ell ++ dropTrailWS t := by
  rw [trimL, show ell ++ t = '.' :: ('.' :: '.' :: t) from rfl,
    List.dropWhile_cons_of_neg (by decide),
    show ('.' :: '.' :: '.' :: t) = ell ++ t from rfl, dropTrailWS_ell_append]

theorem take_ell_append (x : List Char) (j : Nat) (h3 : 3 ≤ j) :
    (ell ++ x).take j = ell ++ x.take (j - 3) := by
  rw [List.take_append_eq_append_take,
    List.take_of_length_le (show ell.length ≤ j from by
      rw [show ell.length = 3 from rfl]; omega)]
  rfl

theorem drop_ell_append (x : List Char) (j : Nat) (h3 : 3 ≤ j) :
    (ell ++ x).drop j = x.drop (j - 3) := by
  rw [List.drop_append_eq_append_drop,
    List.drop_eq_nil_of_le (show ell.length ≤ j from by
      rw [show ell.length = 3 from rfl]; omega)]
  rfl

theorem stripLeadEll_ell_append (t : List Char) : stripLeadEll (ell ++ t) = t := by
  rw [stripLeadEll, if_pos (take3_ell_append t)]
  rfl

theorem stripTrailEll_append_ell (x : List Char) : stripTrailEll (x ++ ell) = x := by
  rw [stripTrailEll, List.reverse_append, show ell.reverse = ell from rfl,
    if_pos (take3_ell_append _)]
  rw [show (ell ++ x.reverse).drop 3 = x.reverse from rfl, List.reverse_reverse]

theorem noDot_take3_ne (t : List Char) (h : '.' ∉ t) : t.take 3 ≠ ell := by
  intro he
  have hm : '.' ∈ t.take 3 := by
    rw [he]
    exact List.mem_cons_self _ _
  exact h (List.take_subset _ _ hm)

theorem stripLeadEll_noDot (t : List Char) (h : '.' ∉ t) : stripLeadEll t = t := by
  rw [stripLeadEll, if_neg (noDot_take3_ne t h)]

theorem stripTrailEll_noDot (t : List Char) (h : '.' ∉ t) : stripTrailEll t = t := by
  rw [stripTrailEll, if_neg (noDot_take3_ne t.reverse (by simpa using h))]

theorem stripEll_noDot (t : List Char) (h : '.' ∉ t) : stripEll t = t := by
  rw [stripEll, stripLeadEll_noDot t h, stripTrailEll_noDot t h]

theorem stripEll_chunk_noDot (m : List Char) (h : '.' ∉ m) : stripEll (m ++ ell) = m := by
  cases m with
  | nil => decide
  | cons c m' =>
    rw [stripEll]
    have hlead : stripLeadEll ((c :: m') ++ ell) = (c :: m') ++ ell := by
      rw [stripLeadEll, if_neg ?_]
      intro he
      rw [List.cons_append, List.take_succ_cons] at he
      have hc : c = '.' := (List.cons.injEq _ _ _ _).mp he |>.1
      exact h (hc ▸ List.mem_cons_self c m')
    rw [hlead]
    exact stripTrailEll_append_ell _

theorem stripEll_ell_chunk (x : List Char) : stripEll (ell ++ (x ++ ell)) = x := by
  rw [stripEll, stripLeadEll_ell_append, stripTrailEll_append_ell]

theorem stripEll_ell_append_noDot (t : List Char) (h : '.' ∉ t) :
    stripEll (ell ++ t) = t := by
  rw [stripEll, stripLeadEll_ell_append, stripTrailEll_noDot t h]

/-! ### Behaviour of the fragmentation loop -/

theorem splitLongGo_ne_nil : ∀ (fuel : Nat) (r : List Char), 0 < r.length →
    splitLongGo fuel r ≠ [] := by
  intro fuel
  induction fuel with
  | zero => intro r _; simp [splitLongGo]
  | succ fuel _ =>
    intro r h
    simp only [splitLongGo]
    by_cases hl : MAX_TWEET_LENGTH < r.length
    · rw [if_pos hl]
      simp
    · rw [if_neg hl, if_pos h]
      simp

theorem splitLongGo_length : ∀ (fuel : Nat) (r : List Char), fragMeasure r ≤ fuel →
    ∀ f ∈ splitLongGo fuel r, f.length ≤ MAX_TWEET_LENGTH := by
  intro fuel
  induction fuel with
  | zero =>
    intro r hμ
    exact absurd hμ (by have := fragMeasure_pos r; omega)
  | succ fuel ih =>
    intro r hμ f hf
    simp only [splitLongGo] at hf
    by_cases hl : MAX_TWEET_LENGTH < r.length
    · rw [if_pos hl] at hf
      rcases List.mem_cons.mp hf with h1 | h2
      · exact h1 ▸ cutStep_fst_length r
      · refine ih (cutStep r).2 ?_ f h2
        have := cutStep_measure r hl
        omega
    · rw [if_neg hl] at hf
      by_cases h0 : 0 < r.length
      · rw [if_pos h0] at hf
        rw [List.mem_singleton.mp hf]
        omega
      · rw [if_neg h0] at hf
        exact absurd hf (List.not_mem_nil f)

theorem splitLongGo_mem : ∀ (fuel : Nat) (r : List Char), ∀ f ∈ splitLongGo fuel r,
    ∀ c ∈ f, c ∈ r ∨ c = '.' := by
  intro fuel
  induction fuel with
  | zero =>
    intro r f hf c hc
    simp only [splitLongGo, List.mem_singleton] at hf
    exact Or.inl (hf ▸ hc)
  | succ fuel ih =>
    intro r f hf c hc
    simp only [splitLongGo] at hf
    by_cases hl : MAX_TWEET_LENGTH < r.length
    · rw [if_pos hl] at hf
      rcases List.mem_cons.mp hf with h1 | h2
      · exact (cutStep_mem r c).1 (h1 ▸ hc)
      · rcases ih (cutStep r).2 f h2 c hc with h3 | h4
        · exact (cutStep_mem r c).2 h3
        · exact Or.inr h4
    · rw [if_neg hl] at hf
      by_cases h0 : 0 < r.length
      · rw [if_pos h0] at hf
        exact Or.inl ((List.mem_singleton.mp hf) ▸ hc)
      · rw [if_neg h0] at hf
        exact absurd hf (List.not_mem_nil f)

theorem cutStep_fst_startEll (r : List Char) (hre : r.take 3 = ell) :
    (cutStep r).1.take 3 = ell := by
  obtain ⟨j, hstep, _, _, hj3⟩ := cutStep_shape r
  have h3 := hj3 hre
  obtain ⟨r3, hr⟩ := take3_ell_shape r hre
  have h1 : (cutStep r).1 = trimL (r.take j) ++ ell := by rw [hstep]
  rw [h1, hr, show ('.' :: '.' :: '.' :: r3) = ell ++ r3 from rfl,
    take_ell_append r3 j h3, trimL_ell_append, List.append_assoc]
  exact take3_ell_append _

theorem splitLongGo_ellStruct : ∀ (fuel : Nat) (r : List Char), fragMeasure r ≤ fuel →
    r.take 3 = ell →
    (∀ f ∈ splitLongGo fuel r, f.take 3 = ell) ∧
    (∀ f ∈ (splitLongGo fuel r).dropLast, f.reverse.take 3 = ell) := by
  intro fuel
  induction fuel with
  | zero =>
    intro r hμ _
    exact absurd hμ (by have := fragMeasure_pos r; omega)
  | succ fuel ih =>
    intro r hμ hre
    simp only [splitLongGo]
    by_cases hl : MAX_TWEET_LENGTH < r.length
    · rw [if_pos hl]
      have hμ' : fragMeasure (cutStep r).2 ≤ fuel := by
        have := cutStep_measure r hl
        omega
      obtain ⟨ihAll, ihDrop⟩ := ih (cutStep r).2 hμ' (cutStep_snd_take3 r)
      have hne : splitLongGo fuel (cutStep r).2 ≠ [] :=
        splitLongGo_ne_nil fuel (cutStep r).2 (cutStep_snd_pos r)
      constructor
      · intro f hf
        rcases List.mem_cons.mp hf with h1 | h2
        · exact h1 ▸ cutStep_fst_startEll r hre
        · exact ihAll f h2
      · intro f hf
        cases hgo : splitLongGo fuel (cutStep r).2 with
        | nil => exact absurd hgo hne
        | cons g gs =>
          rw [hgo, List.dropLast_cons₂] at hf
          rcases List.mem_cons.mp hf with h1 | h2
          · exact h1 ▸ cutStep_fst_endsEll r
          · exact ihDrop f (by rw [hgo]; exact h2)
    · rw [if_neg hl]
      have h0 : 0 < r.length := by
        have := length_ge_3_of_take3 r hre
        omega
      rw [if_pos h0]
      refine ⟨fun f hf => (List.mem_singleton.mp hf) ▸ hre, fun f hf => ?_⟩
      simp at hf

theorem splitLongGo_recon : ∀ (fuel : Nat) (r t : List Char), fragMeasure r ≤ fuel →
    ((r = t ∧ '.' ∉ t) ∨ (r = ell ++ t ∧ '.' ∉ t)) →
    ((splitLongGo fuel r).map fun f => removeWS (stripEll f)).flatten = removeWS t := by
  intro fuel
  induction fuel with
  | zero =>
    intro r t hμ _
    exact absurd hμ (by have := fragMeasure_pos r; omega)
  | succ fuel ih =>
    intro r t hμ hinv
    simp only [splitLongGo]
    by_cases hl : MAX_TWEET_LENGTH < r.length
    · rw [if_pos hl]
      have hμ' : fragMeasure (cutStep r).2 ≤ fuel := by
        have := cutStep_measure r hl
        omega
      obtain ⟨j, hstep, hj1, _, hj3⟩ := cutStep_shape r
      have h1 : (cutStep r).1 = trimL (r.take j) ++ ell := by rw [hstep]
      have h2 : (cutStep r).2 = ell ++ trimL (r.drop j) := by rw [hstep]
      rw [List.map_cons, List.flatten_cons, h1]
      rcases hinv with ⟨rfl, hnd⟩ | ⟨hr, hnd⟩
      · have hnd1 : '.' ∉ trimL (r.take j) := fun hc =>
          hnd (List.take_subset _ _ (mem_trimL _ _ hc))
        rw [stripEll_chunk_noDot _ hnd1, removeWS_trimL]
        have hnd2 : '.' ∉ trimL (r.drop j) := fun hc =>
          hnd (List.drop_subset _ _ (mem_trimL _ _ hc))
        rw [ih (cutStep r).2 (trimL (r.drop j)) hμ' (Or.inr ⟨h2, hnd2⟩)]
        rw [removeWS_trimL, ← removeWS_split]
      · have h3 := hj3 (by rw [hr]; exact take3_ell_append t)
        subst hr
        rw [take_ell_append t j h3, trimL_ell_append, List.append_assoc,
          stripEll_ell_chunk, removeWS_dropTrailWS]
        have hnd2 : '.' ∉ trimL ((ell ++ t).drop j) := by
          rw [drop_ell_append t j h3]
          exact fun hc => hnd (List.drop_subset _ _ (mem_trimL _ _ hc))
        rw [ih (cutStep (ell ++ t)).2 (trimL ((ell ++ t).drop j)) hμ' (Or.inr ⟨h2, hnd2⟩)]
        rw [removeWS_trimL, drop_ell_append t j h3, ← removeWS_split]
    · rw [if_neg hl]
      by_cases h0 : 0 < r.length
      · rw [if_pos h0]
        rcases hinv with ⟨rfl, hnd⟩ | ⟨hr, hnd⟩
        · rw [List.map_singleton, List.flatten_cons, List.flatten_nil, List.append_nil,
            stripEll_noDot _ hnd]
        · subst hr
          rw [List.map_singleton, List.flatten_cons, List.flatten_nil, List.append_nil,
            stripEll_ell_append_noDot t hnd]
      · rw [if_neg h0]
        have hrnil : r = [] := List.length_eq_zero.mp (by omega)
        subst hrnil
        rcases hinv with ⟨ht, _⟩ | ⟨hr, _⟩
        · rw [← ht]
          rfl
        · exfalso
          have h4 := congrArg List.length hr
          rw [List.length_append, show ell.length = 3 from rfl] at h4
          omega

/-! ### Packer invariants: every emitted thread is short -/

theorem packSentence_inv (st : List (List Char) × List Char) (s : List Char)
    (h1 : ∀ u ∈ st.1, u.length ≤ MAX_TWEET_LENGTH)
    (h2 : st.2.length ≤ MAX_TWEET_LENGTH) :
    (∀ u ∈ (packSentence st s).1, u.length ≤ MAX_TWEET_LENGTH) ∧
    (packSentence st s).2.length ≤ MAX_TWEET_LENGTH := by
  rw [packSentence]
  by_cases hlong : MAX_TWEET_LENGTH < s.length
  · rw [if_pos hlong]
    refine ⟨?_, by simp⟩
    intro u hu
    rcases List.mem_append.mp hu with h3 | h4
    · by_cases he : st.2.isEmpty
      · rw [if_pos he] at h3
        exact h1 u h3
      · rw [if_neg he] at h3
        rcases List.mem_append.mp h3 with h5 | h6
        · exact h1 u h5
        · rw [List.mem_singleton.mp h6]
          exact le_trans (trimL_length_le _) h2
    · exact splitLongGo_length _ s le_rfl u h4
  · rw [if_neg hlong]
    by_cases hfit : candidateFits st.2 s = true
    · rw [if_pos hfit]
      refine ⟨h1, ?_⟩
      have hc : (st.2 ++ ' ' :: s).length ≤ MAX_TWEET_LENGTH := of_decide_eq_true hfit
      have hc2 : st.2.length + (s.length + 1) ≤ MAX_TWEET_LENGTH := by
        rw [List.length_append, List.length_cons] at hc
        exact hc
      by_cases he : st.2.isEmpty
      · rw [if_pos he]
        show s.length ≤ MAX_TWEET_LENGTH
        omega
      · rw [if_neg he]
        exact hc
    · rw [if_neg hfit]
      refine ⟨?_, by show s.length ≤ MAX_TWEET_LENGTH; omega⟩
      intro u hu
      rcases List.mem_append.mp hu with h3 | h4
      · exact h1 u h3
      · rw [List.mem_singleton.mp h4]
        exact le_trans (trimL_length_le _) h2

theorem foldl_packSentence_inv : ∀ (ss : List (List Char)) (st : List (List Char) × List Char),
    (∀ u ∈ st.1, u.length ≤ MAX_TWEET_LENGTH) → st.2.length ≤ MAX_TWEET_LENGTH →
    (∀ u ∈ (ss.foldl packSentence st).1, u.length ≤ MAX_TWEET_LENGTH) ∧
    (ss.foldl packSentence st).2.length ≤ MAX_TWEET_LENGTH := by
  intro ss
  induction ss with
  | nil => exact fun st h1 h2 => ⟨h1, h2⟩
  | cons s ss ih =>
    intro st h1 h2
    rw [List.foldl_cons]
    obtain ⟨g1, g2⟩ := packSentence_inv st s h1 h2
    exact ih _ g1 g2

theorem packParagraph_inv (st : List (List Char) × List Char) (para : List Char)
    (h1 : ∀ u ∈ st.1, u.length ≤ MAX_TWEET_LENGTH)
    (h2 : st.2.length ≤ MAX_TWEET_LENGTH) :
    (∀ u ∈ (packParagraph st para).1, u.length ≤ MAX_TWEET_LENGTH) ∧
    (packParagraph st para).2.length ≤ MAX_TWEET_LENGTH := by
  rw [packParagraph]
  obtain ⟨g1, g2⟩ := foldl_packSentence_inv (splitSentsL para) st h1 h2
  by_cases hb : ((splitSentsL para).foldl packSentence st).2.length + 2 ≤ MAX_TWEET_LENGTH
  · rw [if_pos hb]
    refine ⟨g1, ?_⟩
    rw [List.length_append]
    simpa using hb
  · rw [if_neg hb]
    refine ⟨?_, by simp⟩
    intro u hu
    rcases List.mem_append.mp hu with h3 | h4
    · exact g1 u h3
    · rw [List.mem_singleton.mp h4]
      exact le_trans (trimL_length_le _) g2

theorem foldl_packParagraph_inv : ∀ (ps : List (List Char)) (st : List (List Char) × List Char),
    (∀ u ∈ st.1, u.length ≤ MAX_TWEET_LENGTH) → st.2.length ≤ MAX_TWEET_LENGTH →
    (∀ u ∈ (ps.foldl packParagraph st).1, u.length ≤ MAX_TWEET_LENGTH) ∧
    (ps.foldl packParagraph st).2.length ≤ MAX_TWEET_LENGTH := by
  intro ps
  induction ps with
  | nil => exact fun st h1 h2 => ⟨h1, h2⟩
  | cons p ps ih =>
    intro st h1 h2
    rw [List.foldl_cons]
    obtain ⟨g1, g2⟩ := packParagraph_inv st p h1 h2
    exact ih _ g1 g2

theorem packThreads_length (content : List Char) :
    ∀ u ∈ packThreads content, u.length ≤ MAX_TWEET_LENGTH := by
  intro u hu
  rw [packThreads] at hu
  obtain ⟨g1, g2⟩ := foldl_packParagraph_inv (splitParasL content) ([], [])
    (by intro v hv; exact absurd hv (List.not_mem_nil v)) (by simp)
  by_cases he : (trimL ((splitParasL content).foldl packParagraph ([], [])).2).isEmpty
  · rw [if_pos he] at hu
    exact g1 u hu
  · rw [if_neg he] at hu
    rcases List.mem_append.mp hu with h3 | h4
    · exact g1 u h3
    · rw [List.mem_singleton.mp h4]
      exact le_trans (trimL_length_le _) g2

theorem numberGo_length_le (n : Nat) : ∀ (ts : List (List Char)) (i : Nat),
    (∀ u ∈ ts, u.length ≤ MAX_TWEET_LENGTH) →
    ∀ u ∈ numberGo n i ts, u.length ≤ MAX_TWEET_LENGTH := by
  intro ts
  induction ts with
  | nil =>
    intro i _ u hu
    simp [numberGo] at hu
  | cons t rest ih =>
    intro i h u hu
    simp only [numberGo] at hu
    rcases List.mem_cons.mp hu with h1 | h2
    · subst h1
      by_cases hfits : t.length + (numberingL i n).length ≤ MAX_TWEET_LENGTH
      · rw [if_pos hfits, List.length_append]
        omega
      · rw [if_neg hfits]
        exact h t (List.mem_cons_self t rest)
    · exact ih (i + 1) (fun v hv => h v (List.mem_cons_of_mem t hv)) u h2

theorem addNumbering_length_le (ts : List (List Char))
    (h : ∀ u ∈ ts, u.length ≤ MAX_TWEET_LENGTH) :
    ∀ u ∈ addNumbering ts, u.length ≤ MAX_TWEET_LENGTH := by
  intro u hu
  rw [addNumbering] at hu
  by_cases hn : 1 < ts.length
  · rw [if_pos hn] at hu
    exact numberGo_length_le ts.length ts 0 h u hu
  · rw [if_neg hn] at hu
    exact h u hu

/-! ### Numbering: shape lemmas -/

theorem numberGo_length (n : Nat) : ∀ (ts : List (List Char)) (i : Nat),
    (numberGo n i ts).length = ts.length := by
  intro ts
  induction ts with
  | nil => intro i; rfl
  | cons t rest ih =>
    intro i
    simp only [numberGo, List.length_cons, ih (i + 1)]

theorem numberGo_getD (n : Nat) : ∀ (ts : List (List Char)) (i k : Nat), k < ts.length →
    (numberGo n i ts).getD k [] =
      (if (ts.getD k []).length + (numberingL (i + k) n).length ≤ MAX_TWEET_LENGTH
       then numberingL (i + k) n ++ ts.getD k [] else ts.getD k []) := by
  intro ts
  induction ts with
  | nil =>
    intro i k hk
    simp at hk
  | cons t rest ih =>
    intro i k hk
    cases k with
    | zero =>
      simp only [numberGo, List.getD_cons_zero, Nat.add_zero]
    | succ k =>
      simp only [numberGo, List.getD_cons_succ]
      rw [ih (i + 1) k (by simpa using Nat.le_of_succ_le_succ hk)]
      have harith : i + 1 + k = i + (k + 1) := by omega
      rw [harith]

/-! ### Packer reconstruction: no non-whitespace character is lost -/

theorem removeWS_append_nn (l : List Char) :
    removeWS (l ++ ['\n', '\n']) = removeWS l := by
  rw [removeWS_append]
  rw [show removeWS ['\n', '\n'] = [] from by decide, List.append_nil]

theorem packSentence_recon (st : List (List Char) × List Char) (s : List Char)
    (hsd : '.' ∉ s) (hcd : '.' ∉ st.2) :
    '.' ∉ (packSentence st s).2 ∧
    ((packSentence st s).1.map fun u => removeWS (stripEll u)).flatten ++
        removeWS (packSentence st s).2
      = (st.1.map fun u => removeWS (stripEll u)).flatten ++ removeWS st.2 ++ removeWS s := by
  have htc : '.' ∉ trimL st.2 := fun hc => hcd (mem_trimL _ _ hc)
  have htrim : removeWS (stripEll (trimL st.2)) = removeWS st.2 := by
    rw [stripEll_noDot _ htc, removeWS_trimL]
  rw [packSentence]
  by_cases hlong : MAX_TWEET_LENGTH < s.length
  · rw [if_pos hlong]
    refine ⟨by simp, ?_⟩
    have hfrag : ((splitLongSentenceL s).map fun u => removeWS (stripEll u)).flatten
        = removeWS s :=
      splitLongGo_recon (fragMeasure s) s s le_rfl (Or.inl ⟨rfl, hsd⟩)
    by_cases he : st.2.isEmpty
    · rw [if_pos he]
      have h2 : st.2 = [] := List.isEmpty_iff.mp he
      rw [List.map_append, List.flatten_append, hfrag, h2]
      simp [removeWS]
    · rw [if_neg he]
      rw [List.map_append, List.flatten_append, hfrag, List.map_append, List.flatten_append]
      simp only [List.map_cons, List.map_nil, List.flatten_cons, List.flatten_nil,
        List.append_nil, htrim]
      simp [removeWS, List.append_assoc]
  · rw [if_neg hlong]
    by_cases hfit : candidateFits st.2 s = true
    · rw [if_pos hfit]
      by_cases he : st.2.isEmpty
      · rw [if_pos he]
        have h2 : st.2 = [] := List.isEmpty_iff.mp he
        refine ⟨hsd, ?_⟩
        rw [h2]
        simp [removeWS, List.append_assoc]
      · rw [if_neg he]
        constructor
        · intro hc
          rcases List.mem_append.mp hc with h3 | h4
          · exact hcd h3
          · rcases List.mem_cons.mp h4 with h5 | h6
            · exact absurd h5.symm (by decide)
            · exact hsd h6
        · rw [removeWS_append, removeWS_cons, if_pos (show isWS ' ' = true from rfl),
            List.append_assoc]
    · rw [if_neg hfit]
      refine ⟨hsd, ?_⟩
      rw [List.map_append, List.flatten_append]
      simp only [List.map_cons, List.map_nil, List.flatten_cons, List.flatten_nil,
        List.append_nil, htrim]

theorem foldl_packSentence_recon : ∀ (ss : List (List Char)) (st : List (List Char) × List Char),
    (∀ s ∈ ss, '.' ∉ s) → '.' ∉ st.2 →
    '.' ∉ (ss.foldl packSentence st).2 ∧
    ((ss.foldl packSentence st).1.map fun u => removeWS (stripEll u)).flatten ++
        removeWS (ss.foldl packSentence st).2
      = (st.1.map fun u => removeWS (stripEll u)).flatten ++ removeWS st.2 ++
        (ss.map removeWS).flatten := by
  intro ss
  induction ss with
  | nil =>
    intro st _ hcd
    exact ⟨hcd, by simp⟩
  | cons s ss ih =>
    intro st hss hcd
    rw [List.foldl_cons]
    obtain ⟨g1, g2⟩ := packSentence_recon st s (hss s (List.mem_cons_self s ss)) hcd
    obtain ⟨k1, k2⟩ := ih (packSentence st s) (fun v hv => hss v (List.mem_cons_of_mem s hv)) g1
    refine ⟨k1, ?_⟩
    rw [k2, g2]
    simp [List.append_assoc]

theorem packParagraph_recon (st : List (List Char) × List Char) (p : List Char)
    (hpd : '.' ∉ p) (hcd : '.' ∉ st.2) :
    '.' ∉ (packParagraph st p).2 ∧
    ((packParagraph st p).1.map fun u => removeWS (stripEll u)).flatten ++
        removeWS (packParagraph st p).2
      = (st.1.map fun u => removeWS (stripEll u)).flatten ++ removeWS st.2 ++ removeWS p := by
  have hsents : ∀ s ∈ splitSentsL p, '.' ∉ s := by
    intro s hs hc
    rcases splitSentsGo_mem p.length [] p s hs '.' hc with h1 | h2
    · exact absurd h1 (List.not_mem_nil _)
    · exact hpd h2
  obtain ⟨g1, g2⟩ := foldl_packSentence_recon (splitSentsL p) st hsents hcd
  rw [packParagraph]
  by_cases hb : ((splitSentsL p).foldl packSentence st).2.length + 2 ≤ MAX_TWEET_LENGTH
  · rw [if_pos hb]
    constructor
    · intro hc
      rcases List.mem_append.mp hc with h3 | h4
      · exact g1 h3
      · rcases List.mem_cons.mp h4 with h5 | h6
        · exact absurd h5.symm (by decide)
        · rcases List.mem_cons.mp h6 with h7 | h8
          · exact absurd h7.symm (by decide)
          · exact absurd h8 (List.not_mem_nil _)
    · show _ ++ removeWS (((splitSentsL p).foldl packSentence st).2 ++ ['\n', '\n']) = _
      rw [removeWS_append_nn, g2, splitSentsL_removeWS]
  · rw [if_neg hb]
    have htc : '.' ∉ trimL ((splitSentsL p).foldl packSentence st).2 :=
      fun hc => g1 (mem_trimL _ _ hc)
    refine ⟨by simp, ?_⟩
    rw [List.map_append, List.flatten_append]
    simp only [List.map_cons, List.map_nil, List.flatten_cons, List.flatten_nil,
      List.append_nil, stripEll_noDot _ htc, removeWS_trimL, removeWS_nil]
    rw [List.append_assoc]
    rw [g2, splitSentsL_removeWS]
    exact List.append_assoc _ _ _

theorem foldl_packParagraph_recon : ∀ (ps : List (List Char))
    (st : List (List Char) × List Char),
    (∀ p ∈ ps, '.' ∉ p) → '.' ∉ st.2 →
    '.' ∉ (ps.foldl packParagraph st).2 ∧
    ((ps.foldl packParagraph st).1.map fun u => removeWS (stripEll u)).flatten ++
        removeWS (ps.foldl packParagraph st).2
      = (st.1.map fun u => removeWS (stripEll u)).flatten ++ removeWS st.2 ++
        (ps.map removeWS).flatten := by
  intro ps
  induction ps with
  | nil =>
    intro st _ hcd
    exact ⟨hcd, by simp⟩
  | cons p ps ih =>
    intro st hps hcd
    rw [List.foldl_cons]
    obtain ⟨g1, g2⟩ := packParagraph_recon st p (hps p (List.mem_cons_self p ps)) hcd
    obtain ⟨k1, k2⟩ := ih (packParagraph st p) (fun v hv => hps v (List.mem_cons_of_mem p hv)) g1
    refine ⟨k1, ?_⟩
    rw [k2, g2]
    simp [List.append_assoc]

theorem packThreads_recon (x : List Char) (hx : '.' ∉ x) :
    ((packThreads x).map fun u => removeWS (stripEll u)).flatten = removeWS x := by
  have hps : ∀ p ∈ splitParasL x, '.' ∉ p := by
    intro p hp hc
    rcases splitParasGo_mem x.length [] x p hp '.' hc with h1 | h2
    · exact absurd h1 (List.not_mem_nil _)
    · exact hx h2
  obtain ⟨g1, g2⟩ := foldl_packParagraph_recon (splitParasL x) ([], []) hps
    (List.not_mem_nil _)
  simp only [List.map_nil, List.flatten_nil, removeWS_nil, List.nil_append] at g2
  rw [splitParasL_removeWS] at g2
  rw [packThreads]
  by_cases he : (trimL ((splitParasL x).foldl packParagraph ([], [])).2).isEmpty
  · rw [if_pos he]
    have h2 : trimL ((splitParasL x).foldl packParagraph ([], [])).2 = [] :=
      List.isEmpty_iff.mp he
    have h3 : removeWS ((splitParasL x).foldl packParagraph ([], [])).2 = [] := by
      rw [← removeWS_trimL, h2]
      rfl
    rw [h3, List.append_nil] at g2
    exact g2
  · rw [if_neg he]
    have htc : '.' ∉ trimL ((splitParasL x).foldl packParagraph ([], [])).2 :=
      fun hc => g1 (mem_trimL _ _ hc)
    rw [List.map_append, List.flatten_append]
    simp only [List.map_cons, List.map_nil, List.flatten_cons, List.flatten_nil,
      List.append_nil, stripEll_noDot _ htc, removeWS_trimL]
    exact g2

/-! ### Slash-freeness: content characters of every thread come from the input -/

theorem packSentence_noSlash (st : List (List Char) × List Char) (s : List Char)
    (hs : '/' ∉ s) (h1 : ∀ u ∈ st.1, '/' ∉ u) (h2 : '/' ∉ st.2) :
    (∀ u ∈ (packSentence st s).1, '/' ∉ u) ∧ '/' ∉ (packSentence st s).2 := by
  have htc : '/' ∉ trimL st.2 := fun hc => h2 (mem_trimL _ _ hc)
  rw [packSentence]
  by_cases hlong : MAX_TWEET_LENGTH < s.length
  · rw [if_pos hlong]
    refine ⟨?_, by simp⟩
    intro u hu
    rcases List.mem_append.mp hu with h3 | h4
    · by_cases he : st.2.isEmpty
      · rw [if_pos he] at h3
        exact h1 u h3
      · rw [if_neg he] at h3
        rcases List.mem_append.mp h3 with h5 | h6
        · exact h1 u h5
        · rw [List.mem_singleton.mp h6]
          exact htc
    · intro hc
      rcases splitLongGo_mem (fragMeasure s) s u h4 '/' hc with h5 | h6
      · exact hs h5
      · exact absurd h6 (by decide)
  · rw [if_neg hlong]
    by_cases hfit : candidateFits st.2 s = true
    · rw [if_pos hfit]
      refine ⟨h1, ?_⟩
      by_cases he : st.2.isEmpty
      · rw [if_pos he]
        exact hs
      · rw [if_neg he]
        intro hc
        rcases List.mem_append.mp hc with h3 | h4
        · exact h2 h3
        · rcases List.mem_cons.mp h4 with h5 | h6
          · exact absurd h5.symm (by decide)
          · exact hs h6
    · rw [if_neg hfit]
      refine ⟨?_, hs⟩
      intro u hu
      rcases List.mem_append.mp hu with h3 | h4
      · exact h1 u h3
      · rw [List.mem_singleton.mp h4]
        exact htc

theorem foldl_packSentence_noSlash : ∀ (ss : List (List Char))
    (st : List (List Char) × List Char),
    (∀ s ∈ ss, '/' ∉ s) → (∀ u ∈ st.1, '/' ∉ u) → '/' ∉ st.2 →
    (∀ u ∈ (ss.foldl packSentence st).1, '/' ∉ u) ∧ '/' ∉ (ss.foldl packSentence st).2 := by
  intro ss
  induction ss with
  | nil => exact fun st _ h1 h2 => ⟨h1, h2⟩
  | cons s ss ih =>
    intro st hss h1 h2
    rw [List.foldl_cons]
    obtain ⟨g1, g2⟩ := packSentence_noSlash st s (hss s (List.mem_cons_self s ss)) h1 h2
    exact ih _ (fun v hv => hss v (List.mem_cons_of_mem s hv)) g1 g2

theorem packParagraph_noSlash (st : List (List Char) × List Char) (p : List Char)
    (hp : '/' ∉ p) (h1 : ∀ u ∈ st.1, '/' ∉ u) (h2 : '/' ∉ st.2) :
    (∀ u ∈ (packParagraph st p).1, '/' ∉ u) ∧ '/' ∉ (packParagraph st p).2 := by
  have hsents : ∀ s ∈ splitSentsL p, '/' ∉ s := by
    intro s hs hc
    rcases splitSentsGo_mem p.length [] p s hs '/' hc with h3 | h4
    · exact absurd h3 (List.not_mem_nil _)
    · exact hp h4
  obtain ⟨g1, g2⟩ := foldl_packSentence_noSlash (splitSentsL p) st hsents h1 h2
  have htc : '/' ∉ trimL ((splitSentsL p).foldl packSentence st).2 :=
    fun hc => g2 (mem_trimL _ _ hc)
  rw [packParagraph]
  by_cases hb : ((splitSentsL p).foldl packSentence st).2.length + 2 ≤ MAX_TWEET_LENGTH
  · rw [if_pos hb]
    refine ⟨g1, ?_⟩
    intro hc
    rcases List.mem_append.mp hc with h3 | h4
    · exact g2 h3
    · rcases List.mem_cons.mp h4 with h5 | h6
      · exact absurd h5.symm (by decide)
      · rcases List.mem_cons.mp h6 with h7 | h8
        · exact absurd h7.symm (by decide)
        · exact absurd h8 (List.not_mem_nil _)
  · rw [if_neg hb]
    refine ⟨?_, by simp⟩
    intro u hu
    rcases List.mem_append.mp hu with h3 | h4
    · exact g1 u h3
    · rw [List.mem_singleton.mp h4]
      exact htc

theorem foldl_packParagraph_noSlash : ∀ (ps : List (List Char))
    (st : List (List Char) × List Char),
    (∀ p ∈ ps, '/' ∉ p) → (∀ u ∈ st.1, '/' ∉ u) → '/' ∉ st.2 →
    (∀ u ∈ (ps.foldl packParagraph st).1, '/' ∉ u) ∧
    '/' ∉ (ps.foldl packParagraph st).2 := by
  intro ps
  induction ps with
  | nil => exact fun st _ h1 h2 => ⟨h1, h2⟩
  | cons p ps ih =>
    intro st hps h1 h2
    rw [List.foldl_cons]
    obtain ⟨g1, g2⟩ := packParagraph_noSlash st p (hps p (List.mem_cons_self p ps)) h1 h2
    exact ih _ (fun v hv => hps v (List.mem_cons_of_mem p hv)) g1 g2

theorem packThreads_noSlash (x : List Char) (hx : '/' ∉ x) :
    ∀ u ∈ packThreads x, '/' ∉ u := by
  have hps : ∀ p ∈ splitParasL x, '/' ∉ p := by
    intro p hp hc
    rcases splitParasGo_mem x.length [] x p hp '/' hc with h1 | h2
    · exact absurd h1 (List.not_mem_nil _)
    · exact hx h2
  obtain ⟨g1, g2⟩ := foldl_packParagraph_noSlash (splitParasL x) ([], []) hps
    (fun v hv => absurd hv (List.not_mem_nil v)) (List.not_mem_nil _)
  intro u hu
  rw [packThreads] at hu
  by_cases he : (trimL ((splitParasL x).foldl packParagraph ([], [])).2).isEmpty
  · rw [if_pos he] at hu
    exact g1 u hu
  · rw [if_neg he] at hu
    rcases List.mem_append.mp hu with h3 | h4
    · exact g1 u h3
    · rw [List.mem_singleton.mp h4]
      exact fun hc => g2 (mem_trimL _ _ hc)

/-! ### Stripping the numbering prefix undoes `addNumbering` -/

theorem natDigitsF_digits : ∀ (fuel n : Nat), ∀ c ∈ natDigitsF fuel n, isDigitC c = true := by
  intro fuel
  induction fuel with
  | zero =>
    intro n c hc
    simp [natDigitsF] at hc
  | succ fuel ih =>
    intro n c hc
    simp only [natDigitsF] at hc
    by_cases h : n < 10
    · rw [if_pos h] at hc
      rw [List.mem_singleton.mp hc]
      have hd : ∀ k, k < 10 → isDigitC (Nat.digitChar k) = true := by decide
      exact hd n h
    · rw [if_neg h] at hc
      rcases List.mem_append.mp hc with h1 | h2
      · exact ih (n / 10) c h1
      · rw [List.mem_singleton.mp h2]
        have hd : ∀ k, k < 10 → isDigitC (Nat.digitChar k) = true := by decide
        exact hd (n % 10) (Nat.mod_lt n (by omega))

theorem natDigits_digits (n : Nat) : ∀ c ∈ natDigits n, isDigitC c = true :=
  natDigitsF_digits (n + 1) n

theorem natDigits_ne_nil (n : Nat) : natDigits n ≠ [] := by
  rw [natDigits]
  simp only [natDigitsF]
  by_cases h : n < 10
  · rw [if_pos h]
    simp
  · rw [if_neg h]
    simp

theorem takeWhile_append_all (p : Char → Bool) (a b : List Char)
    (h : ∀ c ∈ a, p c = true) : (a ++ b).takeWhile p = a ++ b.takeWhile p := by
  induction a with
  | nil => rfl
  | cons c rest ih =>
    rw [List.cons_append, List.takeWhile_cons_of_pos (h c (List.mem_cons_self c rest)),
      ih (fun d hd => h d (List.mem_cons_of_mem c hd)), List.cons_append]

theorem dropWhile_append_all (p : Char → Bool) (a b : List Char)
    (h : ∀ c ∈ a, p c = true) : (a ++ b).dropWhile p = b.dropWhile p := by
  induction a with
  | nil => rfl
  | cons c rest ih =>
    rw [List.cons_append, List.dropWhile_cons_of_pos (h c (List.mem_cons_self c rest)),
      ih (fun d hd => h d (List.mem_cons_of_mem c hd))]

theorem stripNum_numbering (i n : Nat) (u : List Char) :
    stripNum (numberingL i n ++ u) = u := by
  have hshape : numberingL i n ++ u =
      natDigits (i + 1) ++ '/' :: (natDigits n ++ ' ' :: u) := by
    rw [numberingL]
    simp [List.append_assoc]
  rw [hshape, stripNum]
  rw [dropWhile_append_all isDigitC _ _ (natDigits_digits (i + 1)),
    List.dropWhile_cons_of_neg (by decide)]
  rw [takeWhile_append_all isDigitC _ _ (natDigits_digits (i + 1)),
    List.takeWhile_cons_of_neg (by decide), List.append_nil]
  rw [show (natDigits (i+1)).isEmpty = false from by
    cases he : natDigits (i + 1) with
    | nil => exact absurd he (natDigits_ne_nil (i + 1))
    | cons a l => rfl]
  simp only [Bool.false_eq_true, if_false]
  rw [dropWhile_append_all isDigitC _ _ (natDigits_digits n),
    List.dropWhile_cons_of_neg (by decide)]
  rw [takeWhile_append_all isDigitC _ _ (natDigits_digits n),
    List.takeWhile_cons_of_neg (by decide), List.append_nil]
  rw [show (natDigits n).isEmpty = false from by
    cases he : natDigits n with
    | nil => exact absurd he (natDigits_ne_nil n)
    | cons a l => rfl]
  simp

theorem stripNum_noSlash (u : List Char) (h : '/' ∉ u) : stripNum u = u := by
  rw [stripNum]
  split
  · rename_i rest heq
    exact absurd ((List.dropWhile_sublist _).subset (heq ▸ List.mem_cons_self '/' rest)) h
  · rfl

theorem map_stripNum_numberGo (n : Nat) : ∀ (ts : List (List Char)) (i : Nat),
    (∀ u ∈ ts, '/' ∉ u) → (numberGo n i ts).map stripNum = ts := by
  intro ts
  induction ts with
  | nil => intro i _; rfl
  | cons t rest ih =>
    intro i h
    simp only [numberGo, List.map_cons]
    rw [ih (i + 1) (fun v hv => h v (List.mem_cons_of_mem t hv))]
    by_cases hfits : t.length + (numberingL i n).length ≤ MAX_TWEET_LENGTH
    · rw [if_pos hfits, stripNum_numbering]
    · rw [if_neg hfits, stripNum_noSlash t (h t (List.mem_cons_self t rest))]

theorem map_stripNum_id (ts : List (List Char)) (h : ∀ u ∈ ts, '/' ∉ u) :
    ts.map stripNum = ts := by
  induction ts with
  | nil => rfl
  | cons t rest ih =>
    rw [List.map_cons, stripNum_noSlash t (h t (List.mem_cons_self t rest)),
      ih (fun v hv => h v (List.mem_cons_of_mem t hv))]

theorem map_stripNum_addNumbering (ts : List (List Char)) (h : ∀ u ∈ ts, '/' ∉ u) :
    (addNumbering ts).map stripNum = ts := by
  rw [addNumbering]
  by_cases hn : 1 < ts.length
  · rw [if_pos hn]
    exact map_stripNum_numberGo ts.length ts 0 h
  · rw [if_neg hn]
    exact map_stripNum_id ts h

theorem mem_normalizeL (l : List Char) (c : Char) (h : c ∈ normalizeL l) : c ∈ l :=
  mem_trimL _ _ (mem_replaceCRLF _ _ h)

/-! ### Bridges between `String` and `List Char` -/

theorem data_mk (l : List Char) : (String.mk l).data = l := rfl

theorem length_mk (l : List Char) : (String.mk l).length = l.length := rfl

theorem mk_data (s : String) : String.mk s.data = s := rfl

theorem tail_map_mk (L : List (List Char)) :
    (L.map fun l => String.mk l).tail = L.tail.map fun l => String.mk l := by
  cases L <;> rfl

theorem dropLast_map_mk : ∀ L : List (List Char),
    (L.map fun l => String.mk l).dropLast = L.dropLast.map fun l => String.mk l := by
  intro L
  induction L with
  | nil => rfl
  | cons a rest ih =>
    cases rest with
    | nil => rfl
    | cons b rb =>
      simp only [List.map_cons, List.dropLast_cons₂] at ih ⊢
      rw [ih]

theorem getD_map_mk : ∀ (L : List (List Char)) (k : Nat),
    (L.map fun l => String.mk l).getD k (String.mk []) = String.mk (L.getD k []) := by
  intro L
  induction L with
  | nil => intro k; cases k <;> rfl
  | cons t rest ih =>
    intro k
    cases k with
    | zero => rfl
    | succ k =>
      simp only [List.map_cons, List.getD_cons_succ]
      exact ih k

theorem addNumbering_len (ts : List (List Char)) : (addNumbering ts).length = ts.length := by
  rw [addNumbering]
  by_cases h : 1 < ts.length
  · rw [if_pos h, numberGo_length]
  · rw [if_neg h]

/-! ### Support for the single-short-sentence behaviour -/

theorem replaceCRLF_eq_self : ∀ l : List Char, '\r' ∉ l → replaceCRLF l = l
  | [], _ => rfl
  | [c], _ => rfl
  | c :: d :: rest, h => by
    simp only [replaceCRLF]
    have hc : (c == '\r' && d == '\n') = false := by
      have hne : c ≠ '\r' := fun he => h (he ▸ List.mem_cons_self c (d :: rest))
      simp [hne]
    rw [if_neg (by rw [hc]; exact Bool.false_ne_true)]
    rw [replaceCRLF_eq_self (d :: rest) (fun hm => h (List.mem_cons_of_mem c hm))]

theorem trimL_append_nn (l : List Char) (hws : ∀ c ∈ l, isWS c = false) :
    trimL (l ++ ['\n', '\n']) = l := by
  cases l with
  | nil => decide
  | cons c rest =>
    rw [trimL, List.cons_append,
      List.dropWhile_cons_of_neg (by simp [hws c (List.mem_cons_self c rest)])]
    rw [show c :: (rest ++ ['\n', '\n']) = (c :: rest) ++ ['\n', '\n'] from rfl]
    rw [dropTrailWS, List.reverse_append]
    rw [show (['\n', '\n'] : List Char).reverse ++ (c :: rest).reverse
      = '\n' :: '\n' :: (c :: rest).reverse from rfl]
    rw [List.dropWhile_cons_of_pos (by decide), List.dropWhile_cons_of_pos (by decide)]
    rw [dropWhileWS_eq_self _ (fun d hd => hws d (List.mem_reverse.mp hd))]
    exact List.reverse_reverse _

theorem replaceCRLF_length_le : ∀ l : List Char, (replaceCRLF l).length ≤ l.length
  | [] => le_rfl
  | [_] => le_rfl
  | c :: d :: rest => by
    simp only [replaceCRLF]
    by_cases hb : (c == '\r' && d == '\n') = true
    · rw [if_pos hb]
      have h := replaceCRLF_length_le rest
      simp only [List.length_cons]
      omega
    · rw [if_neg hb]
      have h := replaceCRLF_length_le (d :: rest)
      simp only [List.length_cons] at h ⊢
      omega

theorem dropWhileWS_eq_self_of_trim (l : List Char) (h : trimL l = l) :
    l.dropWhile isWS = l := by
  have h1 : (trimL l).length ≤ (l.dropWhile isWS).length := dropTrailWS_length_le _
  have h2 := (List.dropWhile_sublist (l := l) (p := isWS)).length_le
  rw [h] at h1
  exact (List.dropWhile_sublist _).eq_of_length (by omega)

theorem revDropWhile_eq_self_of_trim (l : List Char) (h : trimL l = l) :
    l.reverse.dropWhile isWS = l.reverse := by
  have hdw := dropWhileWS_eq_self_of_trim l h
  have hdt : dropTrailWS l = l := by
    rw [trimL, hdw] at h
    exact h
  have h3 := congrArg List.reverse hdt
  rw [dropTrailWS, List.reverse_reverse] at h3
  exact h3

theorem trimL_append_nn_of_trim (l : List Char) (h : trimL l = l) (h0 : l ≠ []) :
    trimL (l ++ ['\n', '\n']) = l := by
  obtain ⟨c, rest, rfl⟩ : ∃ c rest, l = c :: rest := by
    cases l with
    | nil => exact absurd rfl h0
    | cons c rest => exact ⟨c, rest, rfl⟩
  have hdw := dropWhileWS_eq_self_of_trim _ h
  have hc : isWS c = false := by
    by_contra hb
    have hb2 : isWS c = true := by simpa using hb
    rw [List.dropWhile_cons_of_pos hb2] at hdw
    have h1 := congrArg List.length hdw
    have h2 := (List.dropWhile_sublist (l := rest) (p := isWS)).length_le
    rw [List.length_cons] at h1
    omega
  rw [trimL, List.cons_append, List.dropWhile_cons_of_neg (by simp [hc])]
  rw [show c :: (rest ++ ['\n', '\n']) = (c :: rest) ++ ['\n', '\n'] from rfl]
  rw [dropTrailWS, List.reverse_append]
  rw [show (['\n', '\n'] : List Char).reverse ++ (c :: rest).reverse
    = '\n' :: '\n' :: (c :: rest).reverse from rfl]
  rw [List.dropWhile_cons_of_pos (by decide), List.dropWhile_cons_of_pos (by decide)]
  rw [revDropWhile_eq_self_of_trim _ h]
  exact List.reverse_reverse _

theorem splitIntoThreadsL_single (l : List Char) (hn : normalizeL l = l)
    (hp : splitParasL l = [l]) (hs : splitSentsL l = [l])
    (h0 : 0 < l.length) (h279 : l.length ≤ 279) : splitIntoThreadsL l = [l] := by
  have hts : trimL l = l := by
    have hl1 := replaceCRLF_length_le (trimL l)
    have hl2 := trimL_length_le l
    have hl3 : (replaceCRLF (trimL l)).length = l.length := by
      rw [show replaceCRLF (trimL l) = l from hn]
    exact (trimL_sublist l).eq_of_length (by omega)
  have hlne : l.isEmpty = false := by
    cases l with
    | nil => simp at h0
    | cons a r => rfl
  have hnotlong : ¬ MAX_TWEET_LENGTH < l.length := by rw [MAX_TWEET_LENGTH]; omega
  have hfit : candidateFits [] l = true := by
    rw [candidateFits]
    apply decide_eq_true
    rw [List.nil_append, List.length_cons, MAX_TWEET_LENGTH]
    omega
  have hpack : packSentence ([], []) l = ([], l) := by
    rw [packSentence, if_neg hnotlong, if_pos hfit]
    rfl
  have hfold : (splitSentsL l).foldl packSentence ([], []) = ([], l) := by
    rw [hs, List.foldl_cons, List.foldl_nil, hpack]
  rw [splitIntoThreadsL, hn, packThreads, hp, List.foldl_cons, List.foldl_nil,
    packParagraph, hfold]
  by_cases hb : l.length + 2 ≤ MAX_TWEET_LENGTH
  · rw [if_pos (show (([] : List (List Char)), l).2.length + 2 ≤ MAX_TWEET_LENGTH from hb)]
    have htr : trimL (l ++ ['\n', '\n']) = l :=
      trimL_append_nn_of_trim l hts (by
        intro hq
        rw [hq] at h0
        simp at h0)
    rw [show trimL ((((([] : List (List Char)), l)).1,
      ((([] : List (List Char)), l)).2 ++ ['\n', '\n'])).2 = l from htr]
    rw [if_neg (show ¬ (l.isEmpty = true) from by rw [hlne]; exact Bool.false_ne_true)]
    rw [addNumbering, if_neg (by simp)]
    rfl
  · rw [if_neg (show ¬ (([] : List (List Char)), l).2.length + 2 ≤ MAX_TWEET_LENGTH from hb)]
    show ([trimL l] : List (List Char)) = [l]
    rw [hts]

/-! ### Support for the estimate and the termination claims -/

theorem estimate_eq_ceil (n : Nat) : (((n + 223) / 224 : Nat) : ℤ) = ⌈(n : ℚ) / 224⌉ := by
  have h1 := Nat.div_add_mod (n + 223) 224
  have h2 : (n + 223) % 224 < 224 := Nat.mod_lt _ (by norm_num)
  have hb2 : n ≤ 224 * ((n + 223) / 224) := by omega
  have hb3 : 224 * ((n + 223) / 224) < n + 224 := by omega
  have key : ∀ e : ℕ, n ≤ 224 * e → 224 * e < n + 224 → ((e : ℤ) = ⌈(n : ℚ) / 224⌉) := by
    intro e he2 he3
    rw [eq_comm, Int.ceil_eq_iff]
    constructor
    · rw [lt_div_iff₀ (by norm_num : (0:ℚ) < 224)]
      have hc : (224 : ℚ) * (e : ℚ) < (n : ℚ) + 224 := by exact_mod_cast he3
      push_cast
      linarith
    · rw [div_le_iff₀ (by norm_num : (0:ℚ) < 224)]
      have hc : (n : ℚ) ≤ 224 * (e : ℚ) := by exact_mod_cast he2
      push_cast
      linarith
  exact key _ hb2 hb3

theorem frag_reaches (r : List Char) :
    ∃ n, ((fragStep)^[n] r).length ≤ MAX_TWEET_LENGTH := by
  by_cases h : MAX_TWEET_LENGTH < r.length
  · have hd : fragMeasure (fragStep r) < fragMeasure r := by
      rw [fragStep, if_pos h]
      exact cutStep_measure r h
    obtain ⟨n, hn⟩ := frag_reaches (fragStep r)
    exact ⟨n + 1, by rwa [Function.iterate_succ_apply]⟩
  · exact ⟨0, by simpa using Nat.le_of_not_lt h⟩
termination_by fragMeasure r
decreasing_by exact hd

theorem fragStep_fixed (r : List Char) (h : r.length ≤ MAX_TWEET_LENGTH) : fragStep r = r := by
  rw [fragStep, if_neg (by omega)]

theorem fragStep_iterate_fixed (r : List Char) (h : r.length ≤ MAX_TWEET_LENGTH) :
    ∀ k, (fragStep)^[k] r = r := by
  intro k
  induction k with
  | zero => rfl
  | succ k ih => rw [Function.iterate_succ_apply, fragStep_fixed r h, ih]

/-! ## Claim theorems -/

/-- C1: for every input string `s`, every element of `splitIntoThreads s` has
length at most 280 — including fragments produced from oversized sentences and
segments to which a numbering prefix was added. -/
theorem claim1_segments_le_280 (s : String) :
    ∀ u ∈ splitIntoThreads s, u.length ≤ 280 := by
  intro u hu
  rw [splitIntoThreads] at hu
  obtain ⟨l, hl, rfl⟩ := List.mem_map.mp hu
  rw [splitIntoThreadsL] at hl
  have h := addNumbering_length_le _ (packThreads_length (normalizeL s.data)) l hl
  rw [MAX_TWEET_LENGTH] at h
  exact h

/-- Witness for C1 at the spec's own example input. -/
theorem claim1_segments_le_280_witness :
    ("Short text." ∈ splitIntoThreads ("Short text.")) ∧
    ("Short text." : String).length ≤ 280 :=
  ⟨by decide, claim1_segments_le_280 ("Short text.") "Short text." (by decide)⟩

/-- C2, as stated, is false: stripping ellipsis markers by pattern removes a
literal leading `"..."` that was part of the input (first input), and a forced
mid-word hard cut makes the space-joined, whitespace-run-collapsed
reconstruction differ from the collapsed input (second input, a single
400-character word). -/
theorem claim2_counterexample :
    ¬ reconStated ("...hello") ∧ ¬ reconStated (String.mk (List.replicate 400 'a')) := by
  constructor
  · unfold reconStated
    decide
  · unfold reconStated
    decide

/-- C2 amended: for inputs containing neither `'.'` nor `'/'` (so injected
ellipsis markers and numbering prefixes are unambiguous), concatenating the
segments after stripping the numbering prefixes and ellipsis markers preserves
the input's non-whitespace characters exactly: deleting all whitespace from
the stripped segments reproduces the normalized input with its whitespace
deleted — no characters are invented or dropped. -/
theorem claim2_amended (s : String) (hd : '.' ∉ s.data) (hs : '/' ∉ s.data) :
    ((splitIntoThreads s).map fun u => removeWS (stripEll (stripNum u.data))).flatten
      = removeWS (normalizeL s.data) := by
  have hnd : '.' ∉ normalizeL s.data := fun hc => hd (mem_normalizeL _ _ hc)
  have hns : '/' ∉ normalizeL s.data := fun hc => hs (mem_normalizeL _ _ hc)
  rw [splitIntoThreads, List.map_map]
  rw [show ((fun u : String => removeWS (stripEll (stripNum u.data))) ∘ fun l => String.mk l)
    = ((fun l => removeWS (stripEll l)) ∘ stripNum) from rfl]
  rw [splitIntoThreadsL, ← List.map_map]
  rw [map_stripNum_addNumbering _ (packThreads_noSlash _ hns)]
  exact packThreads_recon _ hnd

/-- Witness for the amended C2. -/
theorem claim2_amended_witness :
    ('.' ∉ ("Hello world! How are you").data) ∧ ('/' ∉ ("Hello world! How are you").data) ∧
    ((splitIntoThreads ("Hello world! How are you")).map
      fun u => removeWS (stripEll (stripNum u.data))).flatten
      = removeWS (normalizeL ("Hello world! How are you").data) :=
  ⟨by decide, by decide, claim2_amended ("Hello world! How are you") (by decide) (by decide)⟩

/-- C3, as stated, is false at a single sentence of length exactly 280: the
candidate test `(currentThread + ' ' + sentence).length <= 280` includes the
joining space even when `currentThread` is empty, so a 280-character sentence
falls into the else-branch, which pushes the empty `currentThread` as a
spurious segment; numbering then yields `["1/2 ", sentence]` rather than the
single unprefixed segment the claim requires. -/
theorem claim3_counterexample :
    splitIntoThreads (String.mk (List.replicate 280 'a')) ≠
      [String.mk (List.replicate 280 'a')] ∧
    splitIntoThreads (String.mk (List.replicate 280 'a')) =
      [String.mk ['1', '/', '2', ' '], String.mk (List.replicate 280 'a')] := by
  constructor
  · decide
  · decide

/-- C3 amended: the candidate always includes the separating space, so the
single-segment identity holds for single sentences of length up to 279 (not
280): every non-empty input that is normalization-stable and forms a single
paragraph that is a single sentence, of length ≤ 279, is returned as exactly
one segment equal to the input, with no numbering prefix and no empty segment
before it. -/
theorem claim3_amended (s : String) (hn : normalizeL s.data = s.data)
    (hp : splitParasL s.data = [s.data]) (hs : splitSentsL s.data = [s.data])
    (h0 : 0 < s.length) (h279 : s.length ≤ 279) :
    splitIntoThreads s = [s] := by
  rw [splitIntoThreads, splitIntoThreadsL_single s.data hn hp hs h0 h279]
  rfl

/-- Witness for the amended C3, at the spec's own example input. -/
theorem claim3_amended_witness :
    normalizeL ("Short text.").data = ("Short text.").data ∧
    splitParasL ("Short text.").data = [("Short text.").data] ∧
    splitSentsL ("Short text.").data = [("Short text.").data] ∧
    0 < ("Short text.").length ∧ ("Short text.").length ≤ 279 ∧
    splitIntoThreads ("Short text.") = ["Short text."] :=
  ⟨by decide, by decide, by decide, by decide, by decide,
    claim3_amended ("Short text.") (by decide) (by decide) (by decide) (by decide)
      (by decide)⟩

/-- C4: fragmenting a sentence longer than 280 characters yields at least two
fragments, in order; every fragment except the last ends with `"..."`
(its reversed character list starts with the marker), every fragment except
the first begins with `"..."`, and every fragment has length ≤ 280. -/
theorem claim4_fragments (w : String) (h : 280 < w.length) :
    2 ≤ (splitLongSentence w).length ∧
    (∀ f ∈ splitLongSentence w, f.length ≤ 280) ∧
    (∀ f ∈ (splitLongSentence w).dropLast, f.data.reverse.take 3 = ell) ∧
    (∀ f ∈ (splitLongSentence w).tail, f.data.take 3 = ell) := by
  have hlen : MAX_TWEET_LENGTH < w.data.length := by
    rw [MAX_TWEET_LENGTH]
    exact h
  rcases hμe : fragMeasure w.data with _ | fuel
  · exact absurd hμe (by have := fragMeasure_pos w.data; omega)
  · have hgo : splitLongSentenceL w.data =
        (cutStep w.data).1 :: splitLongGo fuel (cutStep w.data).2 := by
      rw [splitLongSentenceL, hμe]
      simp only [splitLongGo]
      rw [if_pos hlen]
    have hμ' : fragMeasure (cutStep w.data).2 ≤ fuel := by
      have h1 := cutStep_measure w.data hlen
      omega
    have hne : splitLongGo fuel (cutStep w.data).2 ≠ [] :=
      splitLongGo_ne_nil fuel _ (cutStep_snd_pos w.data)
    obtain ⟨hAll, hDrop⟩ := splitLongGo_ellStruct fuel _ hμ' (cutStep_snd_take3 w.data)
    refine ⟨?_, ?_, ?_, ?_⟩
    · rw [splitLongSentence, List.length_map, hgo, List.length_cons]
      cases hfs : splitLongGo fuel (cutStep w.data).2 with
      | nil => exact absurd hfs hne
      | cons g gs => simp [hfs]
    · intro f hf
      rw [splitLongSentence] at hf
      obtain ⟨l, hl, rfl⟩ := List.mem_map.mp hf
      have h2 := splitLongGo_length (fragMeasure w.data) w.data le_rfl l hl
      rw [MAX_TWEET_LENGTH] at h2
      exact h2
    · intro f hf
      rw [splitLongSentence, dropLast_map_mk] at hf
      obtain ⟨l, hl, rfl⟩ := List.mem_map.mp hf
      rw [data_mk]
      rw [hgo] at hl
      cases hfs : splitLongGo fuel (cutStep w.data).2 with
      | nil => exact absurd hfs hne
      | cons g gs =>
        rw [hfs, List.dropLast_cons₂] at hl
        rcases List.mem_cons.mp hl with h1 | h2
        · exact h1 ▸ cutStep_fst_endsEll w.data
        · exact hDrop l (by rw [hfs]; exact h2)
    · intro f hf
      rw [splitLongSentence, tail_map_mk] at hf
      obtain ⟨l, hl, rfl⟩ := List.mem_map.mp hf
      rw [data_mk]
      rw [hgo] at hl
      exact hAll l (by simpa using hl)

/-- Witness for C4 at a 281-character single-word sentence. -/
theorem claim4_fragments_witness :
    280 < (String.mk (List.replicate 281 'a')).length ∧
    (2 ≤ (splitLongSentence (String.mk (List.replicate 281 'a'))).length ∧
     (∀ f ∈ splitLongSentence (String.mk (List.replicate 281 'a')), f.length ≤ 280) ∧
     (∀ f ∈ (splitLongSentence (String.mk (List.replicate 281 'a'))).dropLast,
        f.data.reverse.take 3 = ell) ∧
     (∀ f ∈ (splitLongSentence (String.mk (List.replicate 281 'a'))).tail,
        f.data.take 3 = ell)) :=
  ⟨by decide, claim4_fragments (String.mk (List.replicate 281 'a')) (by decide)⟩

/-- C5: numbering is applied exactly when more than one segment was packed;
the `k`-th of `n` segments gets the prefix `"(k+1)/n "` exactly when prefix
plus segment fit in 280 characters and is left unmodified otherwise; a
single-segment result receives no prefix; numbering preserves the number and
the order of the segments. -/
theorem claim5_numbering (s : String) :
    (splitIntoThreads s).length = (packThreads (normalizeL s.data)).length ∧
    ((packThreads (normalizeL s.data)).length ≤ 1 →
      splitIntoThreads s = (packThreads (normalizeL s.data)).map fun l => String.mk l) ∧
    (1 < (packThreads (normalizeL s.data)).length →
      ∀ k, k < (packThreads (normalizeL s.data)).length →
        (splitIntoThreads s).getD k (String.mk []) = String.mk
          (if ((packThreads (normalizeL s.data)).getD k []).length +
              (numberingL k (packThreads (normalizeL s.data)).length).length ≤
              MAX_TWEET_LENGTH
           then numberingL k (packThreads (normalizeL s.data)).length ++
              (packThreads (normalizeL s.data)).getD k []
           else (packThreads (normalizeL s.data)).getD k [])) := by
  refine ⟨?_, ?_, ?_⟩
  · rw [splitIntoThreads, List.length_map, splitIntoThreadsL, addNumbering_len]
  · intro hle
    rw [splitIntoThreads, splitIntoThreadsL, addNumbering, if_neg (by omega)]
  · intro hgt k hk
    rw [splitIntoThreads, getD_map_mk, splitIntoThreadsL, addNumbering, if_pos hgt]
    rw [numberGo_getD _ _ 0 k hk, Nat.zero_add]

/-- Witness for C5 at a two-segment input. -/
theorem claim5_numbering_witness :
    1 < (packThreads (normalizeL (String.mk (List.replicate 150 'a' ++ '.' :: ' ' ::
      List.replicate 150 'b')).data)).length ∧
    0 < (packThreads (normalizeL (String.mk (List.replicate 150 'a' ++ '.' :: ' ' ::
      List.replicate 150 'b')).data)).length ∧
    (splitIntoThreads (String.mk (List.replicate 150 'a' ++ '.' :: ' ' ::
      List.replicate 150 'b'))).getD 0 (String.mk []) = String.mk
      (if ((packThreads (normalizeL (String.mk (List.replicate 150 'a' ++ '.' :: ' ' ::
            List.replicate 150 'b')).data)).getD 0 []).length +
          (numberingL 0 (packThreads (normalizeL (String.mk (List.replicate 150 'a' ++
            '.' :: ' ' :: List.replicate 150 'b')).data)).length).length ≤ MAX_TWEET_LENGTH
       then numberingL 0 (packThreads (normalizeL (String.mk (List.replicate 150 'a' ++
            '.' :: ' ' :: List.replicate 150 'b')).data)).length ++
          (packThreads (normalizeL (String.mk (List.replicate 150 'a' ++ '.' :: ' ' ::
            List.replicate 150 'b')).data)).getD 0 []
       else (packThreads (normalizeL (String.mk (List.replicate 150 'a' ++ '.' :: ' ' ::
            List.replicate 150 'b')).data)).getD 0 []) :=
  ⟨by decide, by decide,
    (claim5_numbering (String.mk (List.replicate 150 'a' ++ '.' :: ' ' ::
      List.replicate 150 'b'))).2.2 (by decide) 0 (by decide)⟩

/-- C6: the transform is a total function (every embedded operation is a total
Lean function by construction); the empty string yields the empty sequence,
and a paragraph containing no sentence-terminal punctuation is passed through
the sentence splitter as a single sentence. -/
theorem claim6_totality :
    splitIntoThreads ("") = [] ∧
    ∀ p : String, (∀ c ∈ p.data, isTerm c = false) → splitSentences p = [p] := by
  refine ⟨by decide, fun p hp => ?_⟩
  rw [splitSentences, splitSentsL_noTerm p.data hp]
  rfl

/-- Witness for C6. -/
theorem claim6_totality_witness :
    splitIntoThreads ("") = [] ∧ splitSentences ("abc") = ["abc"] :=
  ⟨claim6_totality.1, claim6_totality.2 ("abc") (by decide)⟩

/-- C7, as stated, is false: at a text of length exactly 280,
`isValidTweetLength` accepts but the packer's empty-current-segment candidate
test `('' + ' ' + sentence).length <= 280` rejects — an off-by-one
disagreement between the two checks. -/
theorem claim7_counterexample :
    isValidTweetLength (String.mk (List.replicate 280 'a')) = true ∧
    candidateFits [] (String.mk (List.replicate 280 'a')).data = false := by
  constructor
  · decide
  · decide

/-- C7 amended: `isValidTweetLength t` is true exactly when `len t ≤ 280`,
while the packer's candidate check with an empty current segment accepts
exactly `len t ≤ 279` (the joining space is always counted); the two agree
exactly on texts whose length is not 280. -/
theorem claim7_amended (t : String) :
    (isValidTweetLength t = true ↔ t.length ≤ 280) ∧
    (candidateFits [] t.data = true ↔ t.length ≤ 279) ∧
    (isValidTweetLength t = candidateFits [] t.data ↔ t.length ≠ 280) := by
  have hlen : t.data.length = t.length := rfl
  refine ⟨?_, ?_, ?_⟩
  · rw [isValidTweetLength, MAX_TWEET_LENGTH]
    exact decide_eq_true_iff
  · rw [candidateFits, MAX_TWEET_LENGTH, List.nil_append, List.length_cons, hlen]
    constructor
    · intro hd
      have h1 := of_decide_eq_true hd
      omega
    · intro hd
      exact decide_eq_true (by omega)
  · rw [isValidTweetLength, candidateFits, MAX_TWEET_LENGTH, List.nil_append,
      List.length_cons, hlen, decide_eq_decide]
    constructor
    · intro hiff heq
      have h1 : t.length ≤ 280 := by omega
      have h2 := hiff.mp h1
      omega
    · intro hne
      constructor
      · intro h1
        omega
      · intro h1
        omega

/-- C8: `estimateTweetCount` equals the exact ceiling of `length / 224`
(`224 = 280 * 0.8`, exactly, in double-precision arithmetic), and it is
monotonically non-decreasing in the input length. -/
theorem claim8_estimate (s t : String) :
    ((estimateTweetCount s : ℤ) = ⌈(s.length : ℚ) / 224⌉) ∧
    (s.length ≤ t.length → estimateTweetCount s ≤ estimateTweetCount t) := by
  constructor
  · exact estimate_eq_ceil s.length
  · intro h
    exact Nat.div_le_div_right (Nat.add_le_add_right h 223)

/-- Witness for C8. -/
theorem claim8_estimate_witness :
    ("a" : String).length ≤ ("ab" : String).length ∧
    estimateTweetCount ("a") ≤ estimateTweetCount ("ab") :=
  ⟨by decide, (claim8_estimate ("a") ("ab")).2 (by decide)⟩

/-- C9: the fragmentation loop terminates on every input — iterating one loop
step finitely many times reaches a remainder of length ≤ 280, after which the
state is stable (the embedded `splitIntoThreads` is a total Lean function by
construction, so the whole transform terminates). -/
theorem claim9_termination (w : String) :
    ∃ n, ((fragStep)^[n] w.data).length ≤ MAX_TWEET_LENGTH ∧
      ∀ m, n ≤ m → (fragStep)^[m] w.data = (fragStep)^[n] w.data := by
  obtain ⟨n, hn⟩ := frag_reaches w.data
  refine ⟨n, hn, fun m hm => ?_⟩
  obtain ⟨k, rfl⟩ := Nat.exists_eq_add_of_le hm
  rw [Nat.add_comm n k, Function.iterate_add_apply]
  rw [fragStep_iterate_fixed _ hn k]

/-- Witness for C9. -/
theorem claim9_termination_witness :
    ∃ n, ((fragStep)^[n] ("x" : String).data).length ≤ MAX_TWEET_LENGTH ∧
      ∀ m, n ≤ m → (fragStep)^[m] ("x" : String).data = (fragStep)^[n] ("x" : String).data :=
  claim9_termination ("x")

/-- C10: an input consisting only of whitespace characters trims to the empty
string, and the final flush emits nothing, so `splitIntoThreads` returns the
empty sequence. -/
theorem claim10_whitespace (s : String) (h : ∀ c ∈ s.data, isWS c = true) :
    splitIntoThreads s = [] := by
  have ht : trimL s.data = [] := trimL_eq_nil _ h
  rw [splitIntoThreads, splitIntoThreadsL, normalizeL, ht]
  rfl

/-- Witness for C10. -/
theorem claim10_whitespace_witness :
    (∀ c ∈ (" \t\n" : String).data, isWS c = true) ∧ splitIntoThreads (" \t\n") = [] :=
  ⟨by decide, claim10_whitespace (" \t\n") (by decide)⟩

end ThreadBuilder
